import Mathlib

/-!
# Verification of the ChainMonitorV2 AMM simulation core

Shallow embedding, in Lean 4, of the arithmetic core of the ChainMonitorV2
repository:

* `backend/analysis/arbitrage_v3_exec.py` — fixed-point mul/div helpers,
  tick → sqrt-price conversion, the single swap step, and the tick-crossing
  swap simulator;
* `backend/collectors/chain_data.py` — the constant-product ("V2-style")
  amount-out formula and the two-pool cycle simulation;
* `backend/analysis/v3_analysis.py` — the liquidity-profile builder.

Python integers are modelled by `Int` (arbitrary precision, like Python's
`int`); Python's floor division `//` is `Int.fdiv`.  Fallible code paths
(`raise ValueError`, `ZeroDivisionError`) are modelled with `Option`: a
Python exception is `none`.
-/

set_option maxRecDepth 10000

namespace ChainMonitorV2

/-! ## Integer division kit

Small lemmas about Euclidean division on `Int` (which agrees with Python's
floor division for positive divisors) and about the `(x + d - 1) / d`
ceiling pattern used by the round-up helpers. -/

lemma fdiv_eq_ediv_of_pos {a d : Int} (hd : 0 < d) : a.fdiv d = a / d :=
  Int.fdiv_eq_ediv a hd.le

lemma ediv_le_of_le_mul {a b d : Int} (hd : 0 < d) (h : a ≤ b * d) : a / d ≤ b := by
  have h1 : a / d ≤ (b * d) / d := Int.ediv_le_ediv hd h
  rwa [Int.mul_ediv_cancel _ (ne_of_gt hd)] at h1

/-- Cross-multiplied monotonicity of floor division. -/
lemma ediv_le_ediv_cross {a b d e : Int} (hd : 0 < d) (he : 0 < e)
    (h : a * e ≤ b * d) : a / d ≤ b / e := by
  have hq : a / d * d ≤ a := Int.ediv_mul_le a (ne_of_gt hd)
  have h2 : a / d * e * d ≤ b * d := by nlinarith [hq]
  have h3 : a / d * e ≤ b := le_of_mul_le_mul_right h2 hd
  exact (Int.le_ediv_iff_mul_le he).2 h3

lemma ediv_le_self_of_le {a d : Int} (hd : 0 < d) (ha : 0 ≤ a) :
    a / d ≤ a := by
  have hd1 : (1:Int) ≤ d := hd
  have := ediv_le_ediv_cross hd one_pos (by nlinarith : a * 1 ≤ a * d)
  simpa using this

/-- `(x + d - 1) / d ≤ m ↔ x ≤ m * d`: the round-up pattern is the least
integer `m` with `x ≤ m * d`. -/
lemma ceil_le_iff {x d m : Int} (hd : 0 < d) : (x + d - 1) / d ≤ m ↔ x ≤ m * d := by
  constructor
  · intro h
    have h2 : (x + d - 1) / d * d ≤ m * d := mul_le_mul_of_nonneg_right h hd.le
    have h3 : x + d - 1 < ((x + d - 1) / d + 1) * d :=
      Int.lt_ediv_add_one_mul_self _ hd
    nlinarith
  · intro h
    have h1 : x + d - 1 ≤ m * d + d - 1 := by linarith
    have h2 : (x + d - 1) / d ≤ (m * d + d - 1) / d := Int.ediv_le_ediv hd h1
    have h3 : (m * d + d - 1) / d ≤ m := by
      have hlt : m * d + d - 1 < (m + 1) * d := by nlinarith
      have := (Int.ediv_lt_iff_lt_mul hd).2 hlt
      omega
    omega

lemma le_ceil_mul {x d : Int} (hd : 0 < d) : x ≤ ((x + d - 1) / d) * d :=
  (ceil_le_iff hd).1 le_rfl

lemma lt_ceil_iff {x d m : Int} (hd : 0 < d) : m < (x + d - 1) / d ↔ m * d < x := by
  rw [← not_le, ← not_le, not_iff_not]
  exact ceil_le_iff hd

/-- Cross-multiplied monotonicity of the round-up pattern. -/
lemma ceil_le_ceil_cross {a b d e : Int} (hd : 0 < d) (he : 0 < e)
    (h : a * e ≤ b * d) : (a + d - 1) / d ≤ (b + e - 1) / e := by
  rw [ceil_le_iff hd]
  have hb : b ≤ ((b + e - 1) / e) * e := le_ceil_mul he
  have h2 : a * e ≤ ((b + e - 1) / e) * d * e := by nlinarith
  exact le_of_mul_le_mul_right h2 he

lemma ceil_nonneg {x d : Int} (hd : 0 < d) (hx : 0 ≤ x) : 0 ≤ (x + d - 1) / d :=
  Int.ediv_nonneg (by omega) hd.le

/-! ## FixedPointMath (`arbitrage_v3_exec.py`)

`mul_div` / `mul_div_round_up` raise `ZeroDivisionError` on a zero
denominator, modelled as `none`. -/

def FEE_DENOM : Int := 1000000

def Q96 : Int := 2 ^ 96

/-- `mul_div(a, b, denom)` from `arbitrage_v3_exec.py`: `(a * b) // denom`,
raising on `denom == 0`. -/
def mul_div (a b denom : Int) : Option Int :=
  if denom = 0 then none else some ((a * b).fdiv denom)

/-- `mul_div_round_up(a, b, denom)`: `(a * b + denom - 1) // denom`,
raising on `denom == 0`. -/
def mul_div_round_up (a b denom : Int) : Option Int :=
  if denom = 0 then none else some ((a * b + denom - 1).fdiv denom)

lemma mul_div_eq {a b denom : Int} (h : denom ≠ 0) :
    mul_div a b denom = some ((a * b).fdiv denom) := by
  simp [mul_div, h]

lemma mul_div_round_up_eq {a b denom : Int} (h : denom ≠ 0) :
    mul_div_round_up a b denom = some ((a * b + denom - 1).fdiv denom) := by
  simp [mul_div_round_up, h]

/-! ## V2 constant-product math (`chain_data.py`) -/

/-- `_v2_amount_out` from `chain_data.py`.  The only division whose
denominator is not a positive literal is the final one; it is modelled
with an explicit `none` guard (Python would raise `ZeroDivisionError`). -/
def v2_amount_out (amount_in reserve_in reserve_out fee_bps : Int) : Option Int :=
  if amount_in ≤ 0 ∨ reserve_in ≤ 0 ∨ reserve_out ≤ 0 then some 0
  else
    let fee_mul := 10000 - fee_bps
    let ain := (amount_in * fee_mul).fdiv 10000
    if ain ≤ 0 then some 0
    else if reserve_in + ain = 0 then none
    else some ((ain * reserve_out).fdiv (reserve_in + ain))

/-- `_simulate_two_pool_token0_cycle` from `chain_data.py`:
token0 → token1 on the buy pool, then token1 → token0 on the sell pool.
Returns `(amount_out_token0, mid_token1, profit_token0)`. -/
def simulate_two_pool_token0_cycle
    (amount_in_token0 r0_buy r1_buy r0_sell r1_sell fee_bps : Int) :
    Option (Int × Int × Int) := do
  let mid_token1 ← v2_amount_out amount_in_token0 r0_buy r1_buy fee_bps
  if mid_token1 ≤ 0 then some (0, 0, 0)
  else do
    let out_token0 ← v2_amount_out mid_token1 r1_sell r0_sell fee_bps
    if out_token0 ≤ 0 then some (0, mid_token1, 0)
    else some (out_token0, mid_token1, out_token0 - amount_in_token0)

/-! ### Helper lemmas about `v2_amount_out` -/

/-- On the computing path `v2_amount_out` returns
`(ain * reserve_out) // (reserve_in + ain)` with `ain > 0`. -/
lemma v2_amount_out_char {x ri ro f v : Int}
    (hx : 0 < x) (hri : 0 < ri) (hro : 0 < ro)
    (h : v2_amount_out x ri ro f = some v) :
    v = 0 ∨
      (0 < (x * (10000 - f)).fdiv 10000 ∧
        v = ((x * (10000 - f)).fdiv 10000 * ro).fdiv
              (ri + (x * (10000 - f)).fdiv 10000)) := by
  unfold v2_amount_out at h
  rw [if_neg (by push_neg; exact ⟨hx, hri, hro⟩)] at h
  by_cases hain : (x * (10000 - f)).fdiv 10000 ≤ 0
  · rw [if_pos hain] at h
    left
    exact (Option.some.inj h).symm
  · rw [if_neg hain] at h
    push_neg at hain
    have hden : ri + (x * (10000 - f)).fdiv 10000 ≠ 0 := by omega
    rw [if_neg hden] at h
    right
    exact ⟨hain, (Option.some.inj h).symm⟩

lemma v2_amount_out_isSome (x ri ro f : Int) :
    (v2_amount_out x ri ro f).isSome = true := by
  unfold v2_amount_out
  split
  · rfl
  · rename_i hmain
    push_neg at hmain
    obtain ⟨hx, hri, hro⟩ := hmain
    by_cases hain : (x * (10000 - f)).fdiv 10000 ≤ 0
    · simp [hain]
    · push_neg at hain
      have hden : ri + (x * (10000 - f)).fdiv 10000 ≠ 0 := by omega
      simp [if_neg (not_le.2 hain), hden]

/-- **C10.** `_v2_amount_out` is total (never raises): it returns `0` whenever
`amount_in ≤ 0` or `reserve_in ≤ 0` or `reserve_out ≤ 0`, and whenever
`reserve_out > 0` its result is strictly below `reserve_out`. -/
theorem C10_v2_amount_out_total_and_bounded
    (amount_in reserve_in reserve_out fee_bps : Int) :
    (v2_amount_out amount_in reserve_in reserve_out fee_bps).isSome = true ∧
    (amount_in ≤ 0 ∨ reserve_in ≤ 0 ∨ reserve_out ≤ 0 →
      v2_amount_out amount_in reserve_in reserve_out fee_bps = some 0) ∧
    (∀ v, 0 < reserve_out →
      v2_amount_out amount_in reserve_in reserve_out fee_bps = some v →
      v < reserve_out) := by
  refine ⟨v2_amount_out_isSome _ _ _ _, ?_, ?_⟩
  · intro hdeg
    unfold v2_amount_out
    rw [if_pos hdeg]
  · intro v hro h
    by_cases hdeg : amount_in ≤ 0 ∨ reserve_in ≤ 0 ∨ reserve_out ≤ 0
    · unfold v2_amount_out at h
      rw [if_pos hdeg] at h
      have : v = 0 := (Option.some.inj h).symm
      omega
    · push_neg at hdeg
      obtain ⟨hx, hri, _⟩ := hdeg
      rcases v2_amount_out_char hx hri hro h with hz | ⟨hain, hv⟩
      · omega
      · set a := (amount_in * (10000 - fee_bps)).fdiv 10000 with ha
        have hden : (0:Int) < reserve_in + a := by omega
        rw [hv, fdiv_eq_ediv_of_pos hden]
        rw [Int.ediv_lt_iff_lt_mul hden]
        nlinarith

theorem C10_witness :
    (v2_amount_out 100 1000 500 30).isSome = true ∧
    v2_amount_out (-5) 1000 500 30 = some 0 ∧
    ∀ v, v2_amount_out 100 1000 500 30 = some v → v < 500 :=
  ⟨(C10_v2_amount_out_total_and_bounded 100 1000 500 30).1,
   (C10_v2_amount_out_total_and_bounded (-5) 1000 500 30).2.1 (Or.inl (by decide)),
   fun v h =>
     (C10_v2_amount_out_total_and_bounded 100 1000 500 30).2.2 v (by decide) h⟩

/-- **C7.** For nonnegative `a`, `b` and `d > 0`, `mul_div` computes
`floor (a*b/d)` and `mul_div_round_up` computes `ceil (a*b/d)` (stated via
their defining characterizations), `mul_div ≤ mul_div_round_up` with
equality iff `d ∣ a*b`, and both fail with a zero denominator. -/
theorem C7_mul_div_floor_ceil (a b d : Int) (_ha : 0 ≤ a) (_hb : 0 ≤ b)
    (hd : 0 < d) :
    (∀ q, mul_div a b d = some q → d * q ≤ a * b ∧ a * b < d * (q + 1)) ∧
    (∀ r, mul_div_round_up a b d = some r →
      a * b ≤ d * r ∧ d * (r - 1) < a * b) ∧
    (∀ q r, mul_div a b d = some q → mul_div_round_up a b d = some r →
      q ≤ r ∧ (q = r ↔ d ∣ a * b)) ∧
    mul_div a b 0 = none ∧ mul_div_round_up a b 0 = none := by
  have hd0 : d ≠ 0 := ne_of_gt hd
  have hqeq : ∀ q, mul_div a b d = some q → q = (a * b) / d := by
    intro q h
    rw [mul_div_eq hd0] at h
    rw [← Option.some.inj h, fdiv_eq_ediv_of_pos hd]
  have hreq : ∀ r, mul_div_round_up a b d = some r → r = (a * b + d - 1) / d := by
    intro r h
    rw [mul_div_round_up_eq hd0] at h
    rw [← Option.some.inj h, fdiv_eq_ediv_of_pos hd]
  refine ⟨?_, ?_, ?_, by simp [mul_div], by simp [mul_div_round_up]⟩
  · intro q h
    rw [hqeq q h]
    constructor
    · have := Int.ediv_mul_le (a * b) hd0
      nlinarith
    · have := Int.lt_ediv_add_one_mul_self (a * b) hd
      nlinarith
  · intro r h
    rw [hreq r h]
    constructor
    · have := le_ceil_mul (x := a * b) hd
      nlinarith
    · have := Int.ediv_mul_le (a * b + d - 1) hd0
      nlinarith
  · intro q r hq hr
    rw [hqeq q hq, hreq r hr]
    constructor
    · exact Int.ediv_le_ediv hd (by omega)
    · constructor
      · intro heq
        have h1 : (a * b) / d * d ≤ a * b := Int.ediv_mul_le (a * b) hd0
        have h2 : a * b ≤ ((a * b + d - 1) / d) * d := le_ceil_mul hd
        rw [← heq] at h2
        have : a * b = (a * b) / d * d := le_antisymm h2 h1
        exact ⟨(a * b) / d, by linarith⟩
      · rintro ⟨k, hk⟩
        rw [hk]
        rw [Int.mul_ediv_cancel_left k hd0]
        have h1 : d * k + d - 1 = (d - 1) + k * d := by ring
        rw [h1, Int.add_mul_ediv_right _ _ hd0,
          Int.ediv_eq_zero_of_lt (by omega) (by omega), zero_add]

theorem C7_witness :
    (3:Int) * 11 ≤ 5 * 7 ∧ (5:Int) * 7 < 3 * (11 + 1) ∧ (11:Int) ≤ 12 ∧
    mul_div 5 7 0 = none :=
  ⟨((C7_mul_div_floor_ceil 5 7 3 (by decide) (by decide) (by decide)).1
      11 (by decide)).1,
   ((C7_mul_div_floor_ceil 5 7 3 (by decide) (by decide) (by decide)).1
      11 (by decide)).2,
   ((C7_mul_div_floor_ceil 5 7 3 (by decide) (by decide) (by decide)).2.2.1
      11 12 (by decide) (by decide)).1,
   (C7_mul_div_floor_ceil 5 7 3 (by decide) (by decide) (by decide)).2.2.2.1⟩

/-! ### C4: two identical constant-product pools never give positive profit -/

/-- `t ↦ (t * c) / (d + t)` is monotone on nonnegative `t` for `c ≥ 0`,
`d > 0` — the fundamental monotonicity of the constant-product formula. -/
lemma v2_curve_mono {t1 t2 c d : Int} (ht1 : 0 ≤ t1) (h12 : t1 ≤ t2)
    (hc : 0 ≤ c) (hd : 0 < d) :
    (t1 * c) / (d + t1) ≤ (t2 * c) / (d + t2) := by
  apply ediv_le_ediv_cross (by omega) (by omega)
  nlinarith [mul_nonneg (mul_nonneg (sub_nonneg.2 h12) hc) hd.le]

/-- **C4.** For two constant-product pools with identical reserves and the
same fee, the two-leg token0 cycle never yields positive profit. -/
theorem C4_identical_pools_no_profit (r0 r1 x fee_bps : Int)
    (hx : 0 < x) (hf : 0 ≤ fee_bps) :
    ∀ out mid profit,
      simulate_two_pool_token0_cycle x r0 r1 r0 r1 fee_bps =
        some (out, mid, profit) →
      profit ≤ 0 := by
  intro out mid profit h
  unfold simulate_two_pool_token0_cycle at h
  obtain ⟨m1, hm1, h⟩ := Option.bind_eq_some.1 h
  by_cases hm1z : m1 ≤ 0
  · rw [if_pos hm1z] at h
    have := Option.some.inj h
    simp only [Prod.mk.injEq] at this
    omega
  · rw [if_neg hm1z] at h
    push_neg at hm1z
    obtain ⟨o1, ho1, h⟩ := Option.bind_eq_some.1 h
    by_cases ho1z : o1 ≤ 0
    · rw [if_pos ho1z] at h
      have := Option.some.inj h
      simp only [Prod.mk.injEq] at this
      omega
    · rw [if_neg ho1z] at h
      push_neg at ho1z
      have := Option.some.inj h
      simp only [Prod.mk.injEq] at this
      obtain ⟨hout, _, hprofit⟩ := this
      -- positive mid forces positive reserves on the first leg
      have hr0 : 0 < r0 := by
        by_contra hcon
        push_neg at hcon
        unfold v2_amount_out at hm1
        rw [if_pos (Or.inr (Or.inl hcon))] at hm1
        have := Option.some.inj hm1
        omega
      have hr1 : 0 < r1 := by
        by_contra hcon
        push_neg at hcon
        unfold v2_amount_out at hm1
        rw [if_pos (Or.inr (Or.inr hcon))] at hm1
        have := Option.some.inj hm1
        omega
      -- characterize both legs
      rcases v2_amount_out_char hx hr0 hr1 hm1 with hz | ⟨ha, hm1v⟩
      · omega
      rcases v2_amount_out_char hm1z hr1 hr0 ho1 with hz | ⟨hb, ho1v⟩
      · omega
      set a := (x * (10000 - fee_bps)).fdiv 10000 with hadef
      set b := (m1 * (10000 - fee_bps)).fdiv 10000 with hbdef
      -- fee deduction never increases the amount
      have hax : a ≤ x := by
        rw [hadef, fdiv_eq_ediv_of_pos (by norm_num : (0:Int) < 10000)]
        apply ediv_le_of_le_mul (by norm_num)
        nlinarith
      have hbm : b ≤ m1 := by
        rw [hbdef, fdiv_eq_ediv_of_pos (by norm_num : (0:Int) < 10000)]
        apply ediv_le_of_le_mul (by norm_num)
        nlinarith
      rw [fdiv_eq_ediv_of_pos (by omega)] at hm1v
      rw [fdiv_eq_ediv_of_pos (by omega)] at ho1v
      -- chain: o1 ≤ (m1*r0)/(r1+m1) with m1 = (a*r1)/(r0+a), then ≤ a ≤ x
      have hO1 : o1 ≤ (m1 * r0) / (r1 + m1) := by
        rw [ho1v]
        exact v2_curve_mono hb.le hbm hr0.le hr1
      have hM0 : (0:Int) ≤ m1 := hm1z.le
      have hMd : ((a * r1) / (r0 + a)) * (r0 + a) ≤ a * r1 :=
        Int.ediv_mul_le _ (by omega)
      rw [← hm1v] at hMd
      have hkey : m1 * r0 ≤ a * (r1 + m1) := by
        nlinarith [mul_nonneg ha.le hM0]
      have hO2 : (m1 * r0) / (r1 + m1) ≤ a := by
        apply ediv_le_of_le_mul (by omega)
        linarith [hkey]
      omega

theorem C4_witness :
    simulate_two_pool_token0_cycle 1000 1000000 2000000 1000000 2000000 30 =
      some (992, 1992, -8) ∧ (-8 : Int) ≤ 0 :=
  ⟨by decide,
   C4_identical_pools_no_profit 1000000 2000000 1000 30 (by decide) (by decide)
     992 1992 (-8) (by decide)⟩

/-! ## TickMath (`arbitrage_v3_exec.py`) -/

def MIN_TICK : Int := -887272

def MAX_TICK : Int := 887272

/-- `_mul_shift(a, b) = (a * b) >> 128`. -/
def mul_shift (a b : Nat) : Nat := (a * b) >>> 128

/-- The 20 `(bit mask, magic constant)` pairs of `get_sqrt_ratio_at_tick`,
in the order the source applies them. -/
def tickMagic : List (Nat × Nat) :=
  [(0x1, 0xfffcb933bd6fad37aa2d162d1a594001),
   (0x2, 0xfff97272373d413259a46990580e213a),
   (0x4, 0xfff2e50f5f656932ef12357cf3c7fdcc),
   (0x8, 0xffe5caca7e10e4e61c3624eaa0941cd0),
   (0x10, 0xffcb9843d60f6159c9db58835c926644),
   (0x20, 0xff973b41fa98c081472e6896dfb254c0),
   (0x40, 0xff2ea16466c96a3843ec78b326b52861),
   (0x80, 0xfe5dee046a99a2a811c461f1969c3053),
   (0x100, 0xfcbe86c7900a88aedcffc83b479aa3a4),
   (0x200, 0xf987a7253ac413176f2b074cf7815e54),
   (0x400, 0xf3392b0822b70005940c7a398e4b70f3),
   (0x800, 0xe7159475a2c29b7443b29c7fa6e889d9),
   (0x1000, 0xd097f3bdfd2022b8845ad8f792aa5825),
   (0x2000, 0xa9f746462d870fdf8a65dc1f90e061e5),
   (0x4000, 0x70d869a156d2a1b890bb3df62baf32f7),
   (0x8000, 0x31be135f97d08fd981231505542fcfa6),
   (0x10000, 0x9aa508b5b7a84e1c677de54f3e99bc9),
   (0x20000, 0x5d6af8dedb81196699c329225ee604),
   (0x40000, 0x2216e584f5fa1ea926041bedfe98),
   (0x80000, 0x48a170391f7dc42444e8fa2)]

/-- One conditional multiplication of the cascade. -/
def ratioStep (absTick : Nat) (r : Nat) (mc : Nat × Nat) : Nat :=
  if absTick &&& mc.1 ≠ 0 then mul_shift r mc.2 else r

/-- The full conditional cascade, starting from `0x1000...000` (Q128 one). -/
def ratioLoop (absTick : Nat) : Nat :=
  List.foldl (ratioStep absTick) 0x100000000000000000000000000000000 tickMagic

/-- `get_sqrt_ratio_at_tick` from `arbitrage_v3_exec.py`.  `none` models the
"tick out of range" `ValueError`; the reciprocal `(1 << 256) // ratio` gets
an explicit `ratio = 0` guard modelling Python's `ZeroDivisionError`
(proved unreachable below). -/
def get_sqrt_ratio_at_tick (tick : Int) : Option Int :=
  if tick < MIN_TICK ∨ tick > MAX_TICK then none
  else
    let ratio := ratioLoop tick.natAbs
    if tick > 0 then
      if ratio = 0 then none
      else
        let r := 2 ^ 256 / ratio
        some (Int.ofNat ((r >>> 32) + (if r &&& (2 ^ 32 - 1) ≠ 0 then 1 else 0)))
    else
      some (Int.ofNat
        ((ratio >>> 32) + (if ratio &&& (2 ^ 32 - 1) ≠ 0 then 1 else 0)))

lemma mul_shift_le_left {a b : Nat} (hb : b ≤ 2 ^ 128) : mul_shift a b ≤ a := by
  unfold mul_shift
  rw [Nat.shiftRight_eq_div_pow]
  calc a * b / 2 ^ 128 ≤ a * 2 ^ 128 / 2 ^ 128 :=
        Nat.div_le_div_right (Nat.mul_le_mul_left a hb)
    _ = a := Nat.mul_div_cancel a (by norm_num)

lemma mul_shift_mono {a a' : Nat} (b : Nat) (h : a ≤ a') :
    mul_shift a b ≤ mul_shift a' b := by
  unfold mul_shift
  rw [Nat.shiftRight_eq_div_pow, Nat.shiftRight_eq_div_pow]
  exact Nat.div_le_div_right (Nat.mul_le_mul_right b h)

/-- Applying every magic constant unconditionally to a smaller start value
lower-bounds the conditional cascade from a larger start value. -/
lemma foldl_all_le_foldl_cond (absTick : Nat) :
    ∀ (l : List (Nat × Nat)) (r s : Nat), (∀ mc ∈ l, mc.2 ≤ 2 ^ 128) → s ≤ r →
      List.foldl (fun t mc => mul_shift t mc.2) s l ≤
        List.foldl (ratioStep absTick) r l := by
  intro l
  induction l with
  | nil => intro r s _ h; simpa using h
  | cons mc rest ih =>
    intro r s hall h
    simp only [List.foldl_cons]
    unfold ratioStep
    by_cases hbit : absTick &&& mc.1 ≠ 0
    · rw [if_pos hbit]
      exact ih _ _ (fun x hx => hall x (List.mem_cons_of_mem _ hx))
        (mul_shift_mono _ h)
    · rw [if_neg hbit]
      refine ih _ _ (fun x hx => hall x (List.mem_cons_of_mem _ hx)) ?_
      exact le_trans (mul_shift_le_left (hall mc (List.mem_cons_self _ _))) h

/-- The conditional cascade never grows. -/
lemma foldl_cond_le (absTick : Nat) :
    ∀ (l : List (Nat × Nat)) (r : Nat), (∀ mc ∈ l, mc.2 ≤ 2 ^ 128) →
      List.foldl (ratioStep absTick) r l ≤ r := by
  intro l
  induction l with
  | nil => intro r _; simp
  | cons mc rest ih =>
    intro r hall
    simp only [List.foldl_cons]
    unfold ratioStep
    by_cases hbit : absTick &&& mc.1 ≠ 0
    · rw [if_pos hbit]
      exact le_trans (ih _ (fun x hx => hall x (List.mem_cons_of_mem _ hx)))
        (mul_shift_le_left (hall mc (List.mem_cons_self _ _)))
    · rw [if_neg hbit]
      exact ih _ (fun x hx => hall x (List.mem_cons_of_mem _ hx))

/-- The (concrete) value of the cascade when every bit is set: a lower bound
for `ratioLoop` at every tick. -/
def ratioFloor : Nat :=
  List.foldl (fun t mc => mul_shift t mc.2) 0x100000000000000000000000000000000
    tickMagic

lemma tickMagic_upper : ∀ mc ∈ tickMagic, mc.2 ≤ 2 ^ 128 := by decide

lemma ratioFloor_lb : 2 ^ 32 ≤ ratioFloor := by decide

lemma ratioLoop_ge (absTick : Nat) : ratioFloor ≤ ratioLoop absTick :=
  foldl_all_le_foldl_cond absTick tickMagic _ _ tickMagic_upper le_rfl

lemma ratioLoop_le (absTick : Nat) : ratioLoop absTick ≤ 2 ^ 128 :=
  foldl_cond_le absTick tickMagic _ tickMagic_upper

lemma ratioLoop_ne_zero (absTick : Nat) : ratioLoop absTick ≠ 0 := by
  have h1 := ratioLoop_ge absTick
  have h2 := ratioFloor_lb
  omega

/-- Any successfully computed sqrt ratio is positive (in fact at least
`2^32`); needed to justify denominators in the swap-step math. -/
lemma get_sqrt_ratio_at_tick_pos {tick s : Int}
    (h : get_sqrt_ratio_at_tick tick = some s) : 0 < s := by
  unfold get_sqrt_ratio_at_tick at h
  split at h
  · exact absurd h (by simp)
  · dsimp only at h
    split at h
    · rw [if_neg (ratioLoop_ne_zero tick.natAbs)] at h
      have hle : ratioLoop tick.natAbs ≤ 2 ^ 128 := ratioLoop_le tick.natAbs
      have hne : ratioLoop tick.natAbs ≠ 0 := ratioLoop_ne_zero tick.natAbs
      have hr : 2 ^ 128 ≤ 2 ^ 256 / ratioLoop tick.natAbs := by
        calc (2:Nat) ^ 128 = 2 ^ 256 / 2 ^ 128 := by norm_num [Nat.pow_div]
          _ ≤ 2 ^ 256 / ratioLoop tick.natAbs :=
            Nat.div_le_div_left hle (by omega)
      have hs : 1 ≤ (2 ^ 256 / ratioLoop tick.natAbs) >>> 32 := by
        rw [Nat.shiftRight_eq_div_pow]
        have : (2:Nat) ^ 128 / 2 ^ 32 ≤ 2 ^ 256 / ratioLoop tick.natAbs / 2 ^ 32 :=
          Nat.div_le_div_right hr
        have h96 : (2:Nat) ^ 96 = 2 ^ 128 / 2 ^ 32 := by norm_num [Nat.pow_div]
        calc (1:Nat) ≤ 2 ^ 96 := Nat.one_le_two_pow
          _ = 2 ^ 128 / 2 ^ 32 := h96
          _ ≤ _ := this
      rw [← Option.some.inj h]
      have : 1 ≤ ((2 ^ 256 / ratioLoop tick.natAbs) >>> 32) +
          (if 2 ^ 256 / ratioLoop tick.natAbs &&& (2 ^ 32 - 1) ≠ 0 then 1 else 0) := by
        split <;> omega
      exact Int.ofNat_pos.2 (by omega)
    · have hge : 2 ^ 32 ≤ ratioLoop tick.natAbs := by
        have h1 := ratioLoop_ge tick.natAbs
        have h2 := ratioFloor_lb
        omega
      have hs : 1 ≤ ratioLoop tick.natAbs >>> 32 := by
        rw [Nat.shiftRight_eq_div_pow]
        calc (1:Nat) = 2 ^ 32 / 2 ^ 32 := by norm_num
          _ ≤ ratioLoop tick.natAbs / 2 ^ 32 := Nat.div_le_div_right hge
      rw [← Option.some.inj h]
      have : 1 ≤ (ratioLoop tick.natAbs >>> 32) +
          (if ratioLoop tick.natAbs &&& (2 ^ 32 - 1) ≠ 0 then 1 else 0) := by
        split <;> omega
      exact Int.ofNat_pos.2 (by omega)

lemma get_sqrt_ratio_at_tick_isSome {tick : Int}
    (h1 : MIN_TICK ≤ tick) (h2 : tick ≤ MAX_TICK) :
    (get_sqrt_ratio_at_tick tick).isSome = true := by
  unfold get_sqrt_ratio_at_tick
  rw [if_neg (by unfold MIN_TICK MAX_TICK at *; omega)]
  by_cases hpos : tick > 0
  · simp only [hpos, if_true, if_pos]
    rw [if_neg (ratioLoop_ne_zero tick.natAbs)]
    rfl
  · simp only [hpos, if_false]
    rfl

/-- **C2.** `get_sqrt_ratio_at_tick` fails (raises) exactly outside
`[-887272, 887272]`, succeeds on every tick inside, and returns exactly
`2^96` at tick `0`. -/
theorem C2_sqrt_ratio_range_and_tick0 :
    (∀ tick : Int, tick < -887272 ∨ 887272 < tick →
        get_sqrt_ratio_at_tick tick = none) ∧
    (∀ tick : Int, -887272 ≤ tick → tick ≤ 887272 →
        (get_sqrt_ratio_at_tick tick).isSome = true) ∧
    get_sqrt_ratio_at_tick 0 = some (2 ^ 96) := by
  refine ⟨?_, ?_, by decide⟩
  · intro tick h
    unfold get_sqrt_ratio_at_tick
    rw [if_pos (by unfold MIN_TICK MAX_TICK; omega)]
  · intro tick h1 h2
    exact get_sqrt_ratio_at_tick_isSome (by unfold MIN_TICK; omega)
      (by unfold MAX_TICK; omega)

theorem C2_witness :
    get_sqrt_ratio_at_tick 887273 = none ∧
    get_sqrt_ratio_at_tick (-887273) = none ∧
    (get_sqrt_ratio_at_tick 5).isSome = true :=
  ⟨C2_sqrt_ratio_range_and_tick0.1 887273 (Or.inr (by decide)),
   C2_sqrt_ratio_range_and_tick0.1 (-887273) (Or.inl (by decide)),
   C2_sqrt_ratio_range_and_tick0.2.1 5 (by decide) (by decide)⟩

/-! ## SwapStepEngine (`arbitrage_v3_exec.py`) -/

/-- `get_amount0_delta(sqrtA, sqrtB, liquidity, round_up)`: sorts the two
sqrt prices, raises (`none`) on a zero lower price, then computes
`mulDiv[RoundUp]((liquidity << 96) * (hi - lo), 1, hi * lo)`. -/
def get_amount0_delta (sqrtA sqrtB liquidity : Int) (round_up : Bool) :
    Option Int :=
  let lo := if sqrtA > sqrtB then sqrtB else sqrtA
  let hi := if sqrtA > sqrtB then sqrtA else sqrtB
  if lo = 0 then none
  else
    let numerator1 := liquidity * Q96
    let numerator2 := hi - lo
    if round_up then mul_div_round_up (numerator1 * numerator2) 1 (hi * lo)
    else mul_div (numerator1 * numerator2) 1 (hi * lo)

/-- `get_amount1_delta(sqrtA, sqrtB, liquidity, round_up)`:
`mulDiv[RoundUp](liquidity, hi - lo, Q96)`. -/
def get_amount1_delta (sqrtA sqrtB liquidity : Int) (round_up : Bool) :
    Option Int :=
  let lo := if sqrtA > sqrtB then sqrtB else sqrtA
  let hi := if sqrtA > sqrtB then sqrtA else sqrtB
  if round_up then mul_div_round_up liquidity (hi - lo) Q96
  else mul_div liquidity (hi - lo) Q96

/-- `get_next_sqrt_from_amount0_in_round_up(sqrtP, liquidity, amount0_in)`. -/
def get_next_sqrt_from_amount0_in_round_up (sqrtP liquidity amount0_in : Int) :
    Option Int :=
  if amount0_in = 0 then some sqrtP
  else
    mul_div_round_up (liquidity * Q96 * sqrtP) 1
      (liquidity * Q96 + amount0_in * sqrtP)

/-- `get_next_sqrt_from_amount1_in_round_down(sqrtP, liquidity, amount1_in)`. -/
def get_next_sqrt_from_amount1_in_round_down (sqrtP liquidity amount1_in : Int) :
    Option Int :=
  if amount1_in = 0 then some sqrtP
  else (mul_div amount1_in Q96 liquidity).map (fun d => sqrtP + d)

/-- `compute_swap_step(sqrtP, sqrtPTarget, liquidity, amount_remaining, fee,
zero_for_one) -> (sqrt_next, amount_in, amount_out, fee_amount)`. -/
def compute_swap_step (sqrtP sqrtPTarget liquidity amount_remaining fee : Int)
    (zero_for_one : Bool) : Option (Int × Int × Int × Int) :=
  if amount_remaining ≤ 0 then some (sqrtP, 0, 0, 0)
  else do
    let amount_remaining_less_fee ←
      mul_div amount_remaining (FEE_DENOM - fee) FEE_DENOM
    if zero_for_one then do
      let amount_in_max ← get_amount0_delta sqrtPTarget sqrtP liquidity true
      if amount_remaining_less_fee ≥ amount_in_max then do
        let amount_out ← get_amount1_delta sqrtPTarget sqrtP liquidity false
        let fee_amount ← mul_div_round_up amount_in_max fee (FEE_DENOM - fee)
        some (sqrtPTarget, amount_in_max, amount_out, fee_amount)
      else do
        let sqrt_next ← get_next_sqrt_from_amount0_in_round_up sqrtP liquidity
          amount_remaining_less_fee
        let amount_out ← get_amount1_delta sqrt_next sqrtP liquidity false
        some (sqrt_next, amount_remaining_less_fee, amount_out,
          amount_remaining - amount_remaining_less_fee)
    else do
      let amount_in_max ← get_amount1_delta sqrtP sqrtPTarget liquidity true
      if amount_remaining_less_fee ≥ amount_in_max then do
        let amount_out ← get_amount0_delta sqrtP sqrtPTarget liquidity false
        let fee_amount ← mul_div_round_up amount_in_max fee (FEE_DENOM - fee)
        some (sqrtPTarget, amount_in_max, amount_out, fee_amount)
      else do
        let sqrt_next ← get_next_sqrt_from_amount1_in_round_down sqrtP liquidity
          amount_remaining_less_fee
        let amount_out ← get_amount0_delta sqrtP sqrt_next liquidity false
        some (sqrt_next, amount_remaining_less_fee, amount_out,
          amount_remaining - amount_remaining_less_fee)

/-- **C1.** A strictly-partial swap step (the fee-reduced input is strictly
below the maximum the pool can absorb before the target price) returns
amounts with `amount_in + fee_amount = amount_remaining` exactly, in both
directions: the rounding slack goes entirely into the fee. -/
theorem C1_step_fee_absorbs_remainder
    (sqrtP sqrtPTarget liquidity amount_remaining fee : Int)
    (zero_for_one : Bool) (lf maxIn : Int)
    (hrem : 0 < amount_remaining)
    (hlf : mul_div amount_remaining (FEE_DENOM - fee) FEE_DENOM = some lf)
    (hmax : (if zero_for_one then get_amount0_delta sqrtPTarget sqrtP liquidity true
             else get_amount1_delta sqrtP sqrtPTarget liquidity true) = some maxIn)
    (hlt : lf < maxIn) :
    ∀ sn ai ao fa,
      compute_swap_step sqrtP sqrtPTarget liquidity amount_remaining fee
          zero_for_one = some (sn, ai, ao, fa) →
      ai + fa = amount_remaining := by
  intro sn ai ao fa h
  unfold compute_swap_step at h
  rw [if_neg (not_le.2 hrem)] at h
  obtain ⟨lf', hlf', h⟩ := Option.bind_eq_some.1 h
  rw [hlf] at hlf'
  obtain rfl : lf = lf' := Option.some.inj hlf'
  cases zero_for_one with
  | true =>
    rw [if_pos rfl] at hmax
    rw [if_pos rfl] at h
    obtain ⟨maxIn', hmax', h⟩ := Option.bind_eq_some.1 h
    rw [hmax] at hmax'
    obtain rfl : maxIn = maxIn' := Option.some.inj hmax'
    rw [if_neg (not_le.2 hlt)] at h
    obtain ⟨sn', hsn, h⟩ := Option.bind_eq_some.1 h
    obtain ⟨ao', hao, h⟩ := Option.bind_eq_some.1 h
    have := Option.some.inj h
    simp only [Prod.mk.injEq] at this
    omega
  | false =>
    rw [if_neg (by simp)] at hmax
    rw [if_neg (by simp)] at h
    obtain ⟨maxIn', hmax', h⟩ := Option.bind_eq_some.1 h
    rw [hmax] at hmax'
    obtain rfl : maxIn = maxIn' := Option.some.inj hmax'
    rw [if_neg (not_le.2 hlt)] at h
    obtain ⟨sn', hsn, h⟩ := Option.bind_eq_some.1 h
    obtain ⟨ao', hao, h⟩ := Option.bind_eq_some.1 h
    have := Option.some.inj h
    simp only [Prod.mk.injEq] at this
    omega

theorem C1_witness :
    compute_swap_step (2 * Q96) Q96 (2 ^ 96) 1000 3000 true =
      some (158456325028528675187087896685, 997, 3987, 3) ∧
    (997 : Int) + 3 = 1000 ∧
    compute_swap_step Q96 (2 * Q96) (2 ^ 96) 1000 3000 false =
      some (79228162514264337593543951333, 997, 996, 3) :=
  ⟨by decide,
   C1_step_fee_absorbs_remainder (2 * Q96) Q96 (2 ^ 96) 1000 3000 true 997
     (2 ^ 95) (by decide) (by decide) (by decide) (by decide)
     158456325028528675187087896685 997 3987 3 (by decide),
   by decide⟩

/-! ## PoolSimulator (`arbitrage_v3_exec.py`) -/

/-- The numeric fields of the `V3SimPool` dataclass.  The identity/metadata
fields (chain, pool address, token addresses, symbols) do not enter any
computation of the simulator and are omitted from the embedding. -/
structure V3SimPool where
  decimals0 : Int
  decimals1 : Int
  fee : Int
  tick_spacing : Int
  sqrtP : Int
  tick : Int
  liquidity : Int
  ticks : List (Int × Int)
deriving DecidableEq

/-- `_next_initialized_tick` for `zero_for_one=True`: walk the tick list in
order, remembering the last tick `≤ tick_current`, stopping at the first
tick above it (the Python loop `break`s there). -/
def next_init_tick_down : List (Int × Int) → Int → Option Int
  | [], _ => none
  | (t, _) :: rest, cur =>
    if t ≤ cur then
      match next_init_tick_down rest cur with
      | some u => some u
      | none => some t
    else none

/-- `_next_initialized_tick` for `zero_for_one=False`: the first tick
`> tick_current` in list order. -/
def next_init_tick_up : List (Int × Int) → Int → Option Int
  | [], _ => none
  | (t, _) :: rest, cur =>
    if t > cur then some t else next_init_tick_up rest cur

/-- `_next_initialized_tick(pool, tick_current, zero_for_one)`. -/
def next_initialized_tick (pool : V3SimPool) (tick_current : Int)
    (zero_for_one : Bool) : Option Int :=
  if zero_for_one then next_init_tick_down pool.ticks tick_current
  else next_init_tick_up pool.ticks tick_current

/-- `_liq_net_at(pool, tick)`: liquidityNet of the first matching entry,
`0` if absent. -/
def liq_net_at : List (Int × Int) → Int → Int
  | [], _ => 0
  | (t, ln) :: rest, tick => if t = tick then ln else liq_net_at rest tick

/-- The `dbg` dictionary returned by `simulate_swap_exact_in`. -/
structure SwapDiag where
  final_sqrtP : Int
  final_tick : Int
  crossed_ticks : Int
  incomplete : Bool
  amount_in_consumed : Int
  amount_in_left : Int
deriving DecidableEq

/-- The `while amount_remaining > 0` loop of `simulate_swap_exact_in`,
written with explicit fuel.  Every loop iteration that neither returns nor
breaks increments `crossed`, and the iteration with
`crossed > max_cross` stops, so the Python loop runs at most
`max_cross + 2` iterations; the caller passes fuel `max_cross.toNat + 2`,
making the fuel-0 branch unreachable (it is shaped like a break for
definiteness). -/
def simLoop (pool : V3SimPool) (amount_in : Int) (zero_for_one : Bool)
    (max_cross : Int) :
    Nat → Int → Int → Int → Int → Int → Int → Option (Int × SwapDiag)
  | 0, sqrtP, tick, _, amount_remaining, amount_out_acc, crossed =>
      some (amount_out_acc,
        ⟨sqrtP, tick, crossed, true, amount_in - amount_remaining,
          amount_remaining⟩)
  | fuel + 1, sqrtP, tick, liquidity, amount_remaining, amount_out_acc,
      crossed =>
      if amount_remaining ≤ 0 then
        some (amount_out_acc,
          ⟨sqrtP, tick, crossed, false, amount_in - amount_remaining,
            amount_remaining⟩)
      else if crossed > max_cross then
        some (amount_out_acc,
          ⟨sqrtP, tick, crossed, true, amount_in - amount_remaining,
            amount_remaining⟩)
      else
        match next_initialized_tick pool tick zero_for_one with
        | none =>
            some (amount_out_acc,
              ⟨sqrtP, tick, crossed, true, amount_in - amount_remaining,
                amount_remaining⟩)
        | some next_tick => do
            let sqrt_target ← get_sqrt_ratio_at_tick next_tick
            if zero_for_one ∧ sqrt_target ≥ sqrtP then
              some (amount_out_acc,
                ⟨sqrtP, tick, crossed, true, amount_in - amount_remaining,
                  amount_remaining⟩)
            else if ¬ zero_for_one ∧ sqrt_target ≤ sqrtP then
              some (amount_out_acc,
                ⟨sqrtP, tick, crossed, true, amount_in - amount_remaining,
                  amount_remaining⟩)
            else do
              let step ← compute_swap_step sqrtP sqrt_target liquidity
                amount_remaining pool.fee zero_for_one
              let sqrt_next := step.1
              let amt_in := step.2.1
              let amt_out := step.2.2.1
              let fee_amt := step.2.2.2
              let amount_remaining2 := amount_remaining - (amt_in + fee_amt)
              let amount_out_acc2 := amount_out_acc + amt_out
              if sqrt_next = sqrt_target then
                let ln := liq_net_at pool.ticks next_tick
                let liquidity2 :=
                  if zero_for_one then liquidity - ln else liquidity + ln
                let tick2 := if zero_for_one then next_tick - 1 else next_tick
                if liquidity2 ≤ 0 then
                  some (amount_out_acc2,
                    ⟨sqrt_next, tick2, crossed + 1, true,
                      amount_in - amount_remaining2, amount_remaining2⟩)
                else
                  simLoop pool amount_in zero_for_one max_cross fuel sqrt_next
                    tick2 liquidity2 amount_remaining2 amount_out_acc2
                    (crossed + 1)
              else
                some (amount_out_acc2,
                  ⟨sqrt_next, tick, crossed, false,
                    amount_in - amount_remaining2, amount_remaining2⟩)

/-- `simulate_swap_exact_in(pool, amount_in, zero_for_one, max_cross)`. -/
def simulate_swap_exact_in (pool : V3SimPool) (amount_in : Int)
    (zero_for_one : Bool) (max_cross : Int) : Option (Int × SwapDiag) :=
  simLoop pool amount_in zero_for_one max_cross (max_cross.toNat + 2)
    pool.sqrtP pool.tick pool.liquidity amount_in 0 0

/-- **C8.** On a pool with an empty sparse tick list, any positive trade
returns output `0` with `incomplete = true` — and no exception. -/
theorem C8_empty_ticks_incomplete (pool : V3SimPool) (amount_in : Int)
    (zero_for_one : Bool) (max_cross : Int)
    (hticks : pool.ticks = []) (hpos : 0 < amount_in) :
    simulate_swap_exact_in pool amount_in zero_for_one max_cross =
      some (0, ⟨pool.sqrtP, pool.tick, 0, true, 0, amount_in⟩) := by
  unfold simulate_swap_exact_in
  have hfuel : max_cross.toNat + 2 = (max_cross.toNat + 1) + 1 := rfl
  rw [hfuel, simLoop]
  rw [if_neg (not_le.2 hpos)]
  have hnone : next_initialized_tick pool pool.tick zero_for_one = none := by
    unfold next_initialized_tick
    rw [hticks]
    cases zero_for_one <;>
      simp [next_init_tick_down, next_init_tick_up]
  by_cases hc : (0:Int) > max_cross
  · rw [if_pos hc]
    norm_num
  · rw [if_neg hc, hnone]
    norm_num

theorem C8_witness :
    simulate_swap_exact_in ⟨6, 18, 3000, 60, 2 ^ 96, 0, 10 ^ 18, []⟩ 5 true 80 =
      some (0, ⟨2 ^ 96, 0, 0, true, 0, 5⟩) :=
  C8_empty_ticks_incomplete ⟨6, 18, 3000, 60, 2 ^ 96, 0, 10 ^ 18, []⟩ 5 true 80
    rfl (by decide)

/-! ## Swap-step characterization

Under a valid pool state (positive sqrt prices, nonnegative liquidity,
fee in `[0, FEE_DENOM)`) every division of `compute_swap_step` has a
positive denominator; the following lemmas express each branch in closed
form.  `cdiv x d` abbreviates the round-up pattern `(x + d - 1) / d`. -/

def cdiv (x d : Int) : Int := (x + d - 1) / d

lemma cdiv_le_iff {x d m : Int} (hd : 0 < d) : cdiv x d ≤ m ↔ x ≤ m * d :=
  ceil_le_iff hd

lemma lt_cdiv_iff {x d m : Int} (hd : 0 < d) : m < cdiv x d ↔ m * d < x :=
  lt_ceil_iff hd

lemma le_cdiv_mul {x d : Int} (hd : 0 < d) : x ≤ cdiv x d * d :=
  le_ceil_mul hd

lemma cdiv_nonneg' {x d : Int} (hd : 0 < d) (hx : 0 ≤ x) : 0 ≤ cdiv x d :=
  ceil_nonneg hd hx

lemma cdiv_le_cdiv_cross {a b d e : Int} (hd : 0 < d) (he : 0 < e)
    (h : a * e ≤ b * d) : cdiv a d ≤ cdiv b e :=
  ceil_le_ceil_cross hd he h

lemma cdiv_mul_exact {s d : Int} (hd : 0 < d) : cdiv (d * s) d = s := by
  unfold cdiv
  rw [show d * s + d - 1 = (d - 1) + s * d from by ring,
    Int.add_mul_ediv_right _ _ (ne_of_gt hd),
    Int.ediv_eq_zero_of_lt (by omega) (by omega), zero_add]

lemma mul_div_round_up_eq_cdiv {a b d : Int} (hd : 0 < d) :
    mul_div_round_up a b d = some (cdiv (a * b) d) := by
  rw [mul_div_round_up_eq (ne_of_gt hd), fdiv_eq_ediv_of_pos hd]
  rfl

lemma mul_div_eq_ediv {a b d : Int} (hd : 0 < d) :
    mul_div a b d = some (a * b / d) := by
  rw [mul_div_eq (ne_of_gt hd), fdiv_eq_ediv_of_pos hd]

lemma Q96_pos : (0:Int) < Q96 := by norm_num [Q96]

lemma FEE_DENOM_pos : (0:Int) < FEE_DENOM := by norm_num [FEE_DENOM]

/-- `get_amount0_delta` with already-ordered positive prices, round-up. -/
lemma get_amount0_delta_ru {a b L : Int} (hab : a ≤ b) (ha : 0 < a) :
    get_amount0_delta a b L true = some (cdiv (L * Q96 * (b - a)) (b * a)) := by
  unfold get_amount0_delta
  have hnot : ¬ a > b := by omega
  simp only [if_neg hnot]
  rw [if_neg (by omega : ¬ a = 0), if_pos trivial,
    mul_div_round_up_eq_cdiv (by nlinarith), mul_one]

/-- `get_amount0_delta` with already-ordered positive prices, round-down. -/
lemma get_amount0_delta_rd {a b L : Int} (hab : a ≤ b) (ha : 0 < a) :
    get_amount0_delta a b L false = some (L * Q96 * (b - a) / (b * a)) := by
  unfold get_amount0_delta
  have hnot : ¬ a > b := by omega
  simp only [if_neg hnot]
  rw [if_neg (by omega : ¬ a = 0), if_neg (by simp),
    mul_div_eq_ediv (by nlinarith), mul_one]

/-- `get_amount1_delta` with already-ordered prices, round-up. -/
lemma get_amount1_delta_ru {a b L : Int} (hab : a ≤ b) :
    get_amount1_delta a b L true = some (cdiv (L * (b - a)) Q96) := by
  unfold get_amount1_delta
  have hnot : ¬ a > b := by omega
  simp only [if_neg hnot]
  rw [if_pos trivial, mul_div_round_up_eq_cdiv Q96_pos]

/-- `get_amount1_delta` with already-ordered prices, round-down. -/
lemma get_amount1_delta_rd {a b L : Int} (hab : a ≤ b) :
    get_amount1_delta a b L false = some (L * (b - a) / Q96) := by
  unfold get_amount1_delta
  have hnot : ¬ a > b := by omega
  simp only [if_neg hnot]
  rw [if_neg (by simp), mul_div_eq_ediv Q96_pos]

/-- In a partial `zero_for_one` step, the price solved from the available
input never undershoots the target price. -/
lemma z41_next_sqrt_ge_target {sqrtP tgt L x : Int} (hsq : 0 < sqrtP)
    (htgt : 0 < tgt) (hL : 0 < L) (hx : 0 ≤ x)
    (hlt : x < cdiv (L * Q96 * (sqrtP - tgt)) (sqrtP * tgt)) :
    tgt ≤ cdiv (L * Q96 * sqrtP) (L * Q96 + x * sqrtP) := by
  have hQ := Q96_pos
  have h1 : x * (sqrtP * tgt) < L * Q96 * (sqrtP - tgt) :=
    (lt_cdiv_iff (mul_pos hsq htgt)).1 hlt
  have hD : 0 < L * Q96 + x * sqrtP := by
    have h2 := mul_pos hL hQ
    have h3 := mul_nonneg hx hsq.le
    linarith
  have h4 : (tgt - 1) * (L * Q96 + x * sqrtP) < L * Q96 * sqrtP := by nlinarith
  have h5 := (lt_cdiv_iff hD).2 h4
  omega

/-- Characterization of `compute_swap_step` in the `zero_for_one = True`
direction under a valid state: either the step fully reaches the target,
or it is partial, with all quantities in closed form. -/
lemma step_char_z41 {sqrtP tgt L rem fee sn ai ao fa : Int}
    (hsq : 0 < sqrtP) (htgt : 0 < tgt) (hdir : tgt < sqrtP)
    (hL : 0 ≤ L) (hrem : 0 < rem) (_hfee0 : 0 ≤ fee) (hfeeF : fee < FEE_DENOM)
    (h : compute_swap_step sqrtP tgt L rem fee true = some (sn, ai, ao, fa)) :
    0 ≤ rem * (FEE_DENOM - fee) / FEE_DENOM ∧
    0 ≤ cdiv (L * Q96 * (sqrtP - tgt)) (sqrtP * tgt) ∧
    ((cdiv (L * Q96 * (sqrtP - tgt)) (sqrtP * tgt) ≤
        rem * (FEE_DENOM - fee) / FEE_DENOM ∧
      sn = tgt ∧ ai = cdiv (L * Q96 * (sqrtP - tgt)) (sqrtP * tgt) ∧
      ao = L * (sqrtP - tgt) / Q96 ∧
      fa = cdiv (ai * fee) (FEE_DENOM - fee)) ∨
     (rem * (FEE_DENOM - fee) / FEE_DENOM <
        cdiv (L * Q96 * (sqrtP - tgt)) (sqrtP * tgt) ∧
      0 < L ∧ ai = rem * (FEE_DENOM - fee) / FEE_DENOM ∧ fa = rem - ai ∧
      sn = cdiv (L * Q96 * sqrtP) (L * Q96 + ai * sqrtP) ∧
      tgt ≤ sn ∧ sn ≤ sqrtP ∧ ao = L * (sqrtP - sn) / Q96)) := by
  have hQ := Q96_pos
  have hF := FEE_DENOM_pos
  have hFf : (0:Int) < FEE_DENOM - fee := by omega
  have hden : (0:Int) < sqrtP * tgt := mul_pos hsq htgt
  unfold compute_swap_step at h
  rw [if_neg (not_le.2 hrem)] at h
  obtain ⟨lf, hlf, h⟩ := Option.bind_eq_some.1 h
  rw [mul_div_eq_ediv hF] at hlf
  have hlfv : lf = rem * (FEE_DENOM - fee) / FEE_DENOM := (Option.some.inj hlf).symm
  subst hlfv
  have hlf0 : 0 ≤ rem * (FEE_DENOM - fee) / FEE_DENOM :=
    Int.ediv_nonneg (by nlinarith) hF.le
  rw [if_pos rfl] at h
  obtain ⟨mi, hmi, h⟩ := Option.bind_eq_some.1 h
  rw [get_amount0_delta_ru hdir.le htgt] at hmi
  have hmiv : mi = cdiv (L * Q96 * (sqrtP - tgt)) (sqrtP * tgt) :=
    (Option.some.inj hmi).symm
  subst hmiv
  have hmi0 : 0 ≤ cdiv (L * Q96 * (sqrtP - tgt)) (sqrtP * tgt) :=
    cdiv_nonneg' hden
      (mul_nonneg (mul_nonneg hL hQ.le) (by omega : (0:Int) ≤ sqrtP - tgt))
  refine ⟨hlf0, hmi0, ?_⟩
  by_cases hfull :
      rem * (FEE_DENOM - fee) / FEE_DENOM ≥
        cdiv (L * Q96 * (sqrtP - tgt)) (sqrtP * tgt)
  · rw [if_pos hfull] at h
    obtain ⟨o, ho, h⟩ := Option.bind_eq_some.1 h
    rw [get_amount1_delta_rd hdir.le] at ho
    have hov : o = L * (sqrtP - tgt) / Q96 := (Option.some.inj ho).symm
    obtain ⟨f1, hf1, h⟩ := Option.bind_eq_some.1 h
    rw [mul_div_round_up_eq_cdiv hFf] at hf1
    have hfv : f1 = cdiv (cdiv (L * Q96 * (sqrtP - tgt)) (sqrtP * tgt) * fee)
        (FEE_DENOM - fee) := (Option.some.inj hf1).symm
    have hcomp := Option.some.inj h
    simp only [Prod.mk.injEq] at hcomp
    obtain ⟨h1, h2, h3, h4⟩ := hcomp
    subst h1
    subst h2
    subst h3
    subst h4
    left
    exact ⟨hfull, rfl, rfl, hov, hfv⟩
  · rw [if_neg hfull] at h
    push_neg at hfull
    have hLpos : 0 < L := by
      rcases eq_or_lt_of_le hL with hL0 | hLpos
      · exfalso
        have hz : cdiv (L * Q96 * (sqrtP - tgt)) (sqrtP * tgt) = 0 := by
          rw [← hL0]
          unfold cdiv
          rw [show (0:Int) * Q96 * (sqrtP - tgt) + sqrtP * tgt - 1
              = sqrtP * tgt - 1 from by ring]
          exact Int.ediv_eq_zero_of_lt (by omega) (by omega)
        omega
      · exact hLpos
    obtain ⟨s1, hs1, h⟩ := Option.bind_eq_some.1 h
    have hD2 : 0 < L * Q96 + rem * (FEE_DENOM - fee) / FEE_DENOM * sqrtP := by
      have h2 := mul_pos hLpos hQ
      have h3 := mul_nonneg hlf0 hsq.le
      linarith
    have hs1v : s1 = cdiv (L * Q96 * sqrtP)
        (L * Q96 + rem * (FEE_DENOM - fee) / FEE_DENOM * sqrtP) := by
      unfold get_next_sqrt_from_amount0_in_round_up at hs1
      by_cases hz : rem * (FEE_DENOM - fee) / FEE_DENOM = 0
      · rw [if_pos hz] at hs1
        rw [hz, ← Option.some.inj hs1]
        rw [show L * Q96 + 0 * sqrtP = L * Q96 from by ring]
        exact (cdiv_mul_exact (mul_pos hLpos hQ)).symm
      · rw [if_neg hz, mul_div_round_up_eq_cdiv hD2, mul_one] at hs1
        exact (Option.some.inj hs1).symm
    have hge : tgt ≤ s1 := by
      rw [hs1v]
      exact z41_next_sqrt_ge_target hsq htgt hLpos hlf0 hfull
    have hle : s1 ≤ sqrtP := by
      rw [hs1v, cdiv_le_iff hD2]
      nlinarith [mul_nonneg hlf0 (mul_nonneg hsq.le hsq.le)]
    obtain ⟨o, ho, h⟩ := Option.bind_eq_some.1 h
    rw [get_amount1_delta_rd hle] at ho
    have hov : o = L * (sqrtP - s1) / Q96 := (Option.some.inj ho).symm
    have hcomp := Option.some.inj h
    simp only [Prod.mk.injEq] at hcomp
    obtain ⟨h1, h2, h3, h4⟩ := hcomp
    subst h1
    subst h2
    subst h3
    subst h4
    right
    exact ⟨hfull, hLpos, rfl, rfl, hs1v, hge, hle, hov⟩

/-- Characterization of `compute_swap_step` in the `zero_for_one = False`
direction under a valid state. -/
lemma step_char_o41 {sqrtP tgt L rem fee sn ai ao fa : Int}
    (hsq : 0 < sqrtP) (_htgt : 0 < tgt) (hdir : sqrtP < tgt)
    (hL : 0 ≤ L) (hrem : 0 < rem) (_hfee0 : 0 ≤ fee) (hfeeF : fee < FEE_DENOM)
    (h : compute_swap_step sqrtP tgt L rem fee false = some (sn, ai, ao, fa)) :
    0 ≤ rem * (FEE_DENOM - fee) / FEE_DENOM ∧
    0 ≤ cdiv (L * (tgt - sqrtP)) Q96 ∧
    ((cdiv (L * (tgt - sqrtP)) Q96 ≤ rem * (FEE_DENOM - fee) / FEE_DENOM ∧
      sn = tgt ∧ ai = cdiv (L * (tgt - sqrtP)) Q96 ∧
      ao = L * Q96 * (tgt - sqrtP) / (tgt * sqrtP) ∧
      fa = cdiv (ai * fee) (FEE_DENOM - fee)) ∨
     (rem * (FEE_DENOM - fee) / FEE_DENOM < cdiv (L * (tgt - sqrtP)) Q96 ∧
      0 < L ∧ ai = rem * (FEE_DENOM - fee) / FEE_DENOM ∧ fa = rem - ai ∧
      sn = sqrtP + ai * Q96 / L ∧
      sqrtP ≤ sn ∧ sn < tgt ∧ ao = L * Q96 * (sn - sqrtP) / (sn * sqrtP))) := by
  have hQ := Q96_pos
  have hF := FEE_DENOM_pos
  have hFf : (0:Int) < FEE_DENOM - fee := by omega
  unfold compute_swap_step at h
  rw [if_neg (not_le.2 hrem)] at h
  obtain ⟨lf, hlf, h⟩ := Option.bind_eq_some.1 h
  rw [mul_div_eq_ediv hF] at hlf
  have hlfv : lf = rem * (FEE_DENOM - fee) / FEE_DENOM := (Option.some.inj hlf).symm
  subst hlfv
  have hlf0 : 0 ≤ rem * (FEE_DENOM - fee) / FEE_DENOM :=
    Int.ediv_nonneg (by nlinarith) hF.le
  rw [if_neg (by simp)] at h
  obtain ⟨mi, hmi, h⟩ := Option.bind_eq_some.1 h
  rw [get_amount1_delta_ru hdir.le] at hmi
  have hmiv : mi = cdiv (L * (tgt - sqrtP)) Q96 := (Option.some.inj hmi).symm
  subst hmiv
  have hmi0 : 0 ≤ cdiv (L * (tgt - sqrtP)) Q96 :=
    cdiv_nonneg' hQ (mul_nonneg hL (by omega : (0:Int) ≤ tgt - sqrtP))
  refine ⟨hlf0, hmi0, ?_⟩
  by_cases hfull :
      rem * (FEE_DENOM - fee) / FEE_DENOM ≥ cdiv (L * (tgt - sqrtP)) Q96
  · rw [if_pos hfull] at h
    obtain ⟨o, ho, h⟩ := Option.bind_eq_some.1 h
    rw [get_amount0_delta_rd hdir.le hsq] at ho
    have hov : o = L * Q96 * (tgt - sqrtP) / (tgt * sqrtP) :=
      (Option.some.inj ho).symm
    obtain ⟨f1, hf1, h⟩ := Option.bind_eq_some.1 h
    rw [mul_div_round_up_eq_cdiv hFf] at hf1
    have hfv : f1 = cdiv (cdiv (L * (tgt - sqrtP)) Q96 * fee)
        (FEE_DENOM - fee) := (Option.some.inj hf1).symm
    have hcomp := Option.some.inj h
    simp only [Prod.mk.injEq] at hcomp
    obtain ⟨h1, h2, h3, h4⟩ := hcomp
    subst h1
    subst h2
    subst h3
    subst h4
    left
    exact ⟨hfull, rfl, rfl, hov, hfv⟩
  · rw [if_neg hfull] at h
    push_neg at hfull
    have hLpos : 0 < L := by
      rcases eq_or_lt_of_le hL with hL0 | hLpos
      · exfalso
        have hz : cdiv (L * (tgt - sqrtP)) Q96 = 0 := by
          rw [← hL0]
          unfold cdiv
          rw [show (0:Int) * (tgt - sqrtP) + Q96 - 1 = Q96 - 1 from by ring]
          exact Int.ediv_eq_zero_of_lt (by omega) (by omega)
        omega
      · exact hLpos
    obtain ⟨s1, hs1, h⟩ := Option.bind_eq_some.1 h
    have hs1v : s1 = sqrtP + rem * (FEE_DENOM - fee) / FEE_DENOM * Q96 / L := by
      unfold get_next_sqrt_from_amount1_in_round_down at hs1
      by_cases hz : rem * (FEE_DENOM - fee) / FEE_DENOM = 0
      · rw [if_pos hz] at hs1
        rw [hz, ← Option.some.inj hs1]
        norm_num
      · rw [if_neg hz, mul_div_eq_ediv hLpos] at hs1
        obtain ⟨d, hd, hfd⟩ := Option.map_eq_some'.1 hs1
        rw [← hfd, Option.some.inj hd]
    have hge : sqrtP ≤ s1 := by
      rw [hs1v]
      have : 0 ≤ rem * (FEE_DENOM - fee) / FEE_DENOM * Q96 / L :=
        Int.ediv_nonneg (mul_nonneg hlf0 hQ.le) hL
      omega
    have hlt : s1 < tgt := by
      rw [hs1v]
      have h1 : rem * (FEE_DENOM - fee) / FEE_DENOM * Q96 < L * (tgt - sqrtP) :=
        (lt_cdiv_iff hQ).1 hfull
      have h2 : rem * (FEE_DENOM - fee) / FEE_DENOM * Q96 / L < tgt - sqrtP :=
        (Int.ediv_lt_iff_lt_mul hLpos).2 (by linarith [h1])
      omega
    obtain ⟨o, ho, h⟩ := Option.bind_eq_some.1 h
    have hs1pos : 0 < s1 := by omega
    rw [get_amount0_delta_rd hge hsq] at ho
    have hov : o = L * Q96 * (s1 - sqrtP) / (s1 * sqrtP) :=
      (Option.some.inj ho).symm
    have hcomp := Option.some.inj h
    simp only [Prod.mk.injEq] at hcomp
    obtain ⟨h1, h2, h3, h4⟩ := hcomp
    subst h1
    subst h2
    subst h3
    subst h4
    right
    exact ⟨hfull, hLpos, rfl, rfl, hs1v, hge, hlt, hov⟩

/-- A full (target-reaching) step consumes at most the remaining input:
`maxIn + ceil(maxIn * fee / (FEE_DENOM - fee)) ≤ rem` whenever
`maxIn ≤ floor(rem * (FEE_DENOM - fee) / FEE_DENOM)`. -/
lemma full_step_consume_le {maxIn rem fee : Int} (hfeeF : fee < FEE_DENOM)
    (hle : maxIn ≤ rem * (FEE_DENOM - fee) / FEE_DENOM) :
    maxIn + cdiv (maxIn * fee) (FEE_DENOM - fee) ≤ rem := by
  have hF := FEE_DENOM_pos
  have hFf : (0:Int) < FEE_DENOM - fee := by omega
  have key : maxIn + cdiv (maxIn * fee) (FEE_DENOM - fee) =
      cdiv (maxIn * FEE_DENOM) (FEE_DENOM - fee) := by
    unfold cdiv
    rw [show maxIn * FEE_DENOM + (FEE_DENOM - fee) - 1
        = (maxIn * fee + (FEE_DENOM - fee) - 1) + maxIn * (FEE_DENOM - fee)
        from by ring,
      Int.add_mul_ediv_right _ _ (ne_of_gt hFf)]
    ring
  rw [key, cdiv_le_iff hFf]
  have h1 : maxIn * FEE_DENOM ≤ rem * (FEE_DENOM - fee) / FEE_DENOM * FEE_DENOM :=
    mul_le_mul_of_nonneg_right hle hF.le
  have h2 : rem * (FEE_DENOM - fee) / FEE_DENOM * FEE_DENOM ≤
      rem * (FEE_DENOM - fee) := Int.ediv_mul_le _ (ne_of_gt hF)
  linarith

/-- Per-step safety: under a valid state a step consumes at most the
remaining input and produces a nonnegative output. -/
lemma step_bounds {sqrtP tgt L rem fee sn ai ao fa : Int} {z41 : Bool}
    (hsq : 0 < sqrtP) (htgt : 0 < tgt)
    (hdir : if z41 then tgt < sqrtP else sqrtP < tgt)
    (hL : 0 ≤ L) (hrem : 0 < rem) (hfee0 : 0 ≤ fee) (hfeeF : fee < FEE_DENOM)
    (h : compute_swap_step sqrtP tgt L rem fee z41 = some (sn, ai, ao, fa)) :
    ai + fa ≤ rem ∧ 0 ≤ ao := by
  have hQ := Q96_pos
  cases z41 with
  | true =>
    rw [if_pos rfl] at hdir
    obtain ⟨hlf0, hmi0, hcase⟩ :=
      step_char_z41 hsq htgt hdir hL hrem hfee0 hfeeF h
    rcases hcase with ⟨hfull, _, hai, hao, hfa⟩ | ⟨_, _, hai, hfa, _, _, hsnle, hao⟩
    · subst hai
      subst hfa
      refine ⟨full_step_consume_le hfeeF hfull, ?_⟩
      rw [hao]
      exact Int.ediv_nonneg (mul_nonneg hL (by omega)) hQ.le
    · subst hai
      refine ⟨by omega, ?_⟩
      rw [hao]
      exact Int.ediv_nonneg (mul_nonneg hL (by omega)) hQ.le
  | false =>
    rw [if_neg (by simp)] at hdir
    obtain ⟨hlf0, hmi0, hcase⟩ :=
      step_char_o41 hsq htgt hdir hL hrem hfee0 hfeeF h
    rcases hcase with ⟨hfull, _, hai, hao, hfa⟩ |
      ⟨_, _, hai, hfa, _, hsnge, _, hao⟩
    · subst hai
      subst hfa
      refine ⟨full_step_consume_le hfeeF hfull, ?_⟩
      rw [hao]
      exact Int.ediv_nonneg
        (mul_nonneg (mul_nonneg hL hQ.le) (by omega))
        (mul_nonneg (by omega) hsq.le)
    · subst hai
      refine ⟨by omega, ?_⟩
      rw [hao]
      exact Int.ediv_nonneg
        (mul_nonneg (mul_nonneg hL hQ.le) (by omega))
        (mul_nonneg (by omega) hsq.le)

/-- Every exit of the simulation loop returns a diagnostics record built as
`(acc, ⟨…, amount_in - rem, rem⟩)`; this packages the bookkeeping. -/
lemma sim_exit_ok {amount_in rem acc sqrtP tick crossed out : Int}
    {dbg : SwapDiag} {b : Bool} (hrem : 0 ≤ rem)
    (h : (some (acc, ⟨sqrtP, tick, crossed, b, amount_in - rem, rem⟩) :
        Option (Int × SwapDiag)) = some (out, dbg)) :
    dbg.amount_in_consumed + dbg.amount_in_left = amount_in ∧
    0 ≤ dbg.amount_in_left ∧ acc ≤ out := by
  have hc := Option.some.inj h
  simp only [Prod.mk.injEq] at hc
  obtain ⟨h1, h2⟩ := hc
  subst h1
  subst h2
  exact ⟨by show amount_in - rem + rem = amount_in; ring,
    by show (0:Int) ≤ rem; exact hrem, le_refl acc⟩

/-- Conservation invariant of the simulation loop: consumed + left equals
the original input, nothing is over-consumed, and the accumulated output
never decreases. -/
lemma simLoop_conserve (pool : V3SimPool) (amount_in : Int) (z41 : Bool)
    (max_cross : Int) (hfee0 : 0 ≤ pool.fee) (hfeeF : pool.fee < FEE_DENOM) :
    ∀ (fuel : Nat) (sqrtP tick L rem acc crossed out : Int) (dbg : SwapDiag),
      0 < sqrtP → 0 ≤ L → 0 ≤ rem →
      simLoop pool amount_in z41 max_cross fuel sqrtP tick L rem acc crossed =
        some (out, dbg) →
      dbg.amount_in_consumed + dbg.amount_in_left = amount_in ∧
      0 ≤ dbg.amount_in_left ∧ acc ≤ out := by
  intro fuel
  induction fuel with
  | zero =>
    intro sqrtP tick L rem acc crossed out dbg hsq hL hrem h
    rw [simLoop] at h
    exact sim_exit_ok hrem h
  | succ fuel ih =>
    intro sqrtP tick L rem acc crossed out dbg hsq hL hrem h
    rw [simLoop] at h
    by_cases h0 : rem ≤ 0
    · rw [if_pos h0] at h
      exact sim_exit_ok hrem h
    · rw [if_neg h0] at h
      push_neg at h0
      by_cases hcx : crossed > max_cross
      · rw [if_pos hcx] at h
        exact sim_exit_ok hrem h
      · rw [if_neg hcx] at h
        cases hnt : next_initialized_tick pool tick z41 with
        | none =>
          rw [hnt] at h
          exact sim_exit_ok hrem h
        | some next_tick =>
          rw [hnt] at h
          obtain ⟨tgt, htgt_eq, h⟩ := Option.bind_eq_some.1 h
          have htgt_pos := get_sqrt_ratio_at_tick_pos htgt_eq
          by_cases hd1 : z41 = true ∧ tgt ≥ sqrtP
          · rw [if_pos hd1] at h
            exact sim_exit_ok hrem h
          · rw [if_neg hd1] at h
            by_cases hd2 : ¬ z41 = true ∧ tgt ≤ sqrtP
            · rw [if_pos hd2] at h
              exact sim_exit_ok hrem h
            · rw [if_neg hd2] at h
              obtain ⟨step, hstep, h⟩ := Option.bind_eq_some.1 h
              obtain ⟨sn, ai2, ao2, fa2⟩ := step
              have hdir : if z41 then tgt < sqrtP else sqrtP < tgt := by
                cases z41 <;> simp_all
              obtain ⟨hcons, hao2⟩ :=
                step_bounds hsq htgt_pos hdir hL h0 hfee0 hfeeF hstep
              dsimp only at h
              by_cases hcross : sn = tgt
              · rw [if_pos hcross] at h
                by_cases hliq :
                    (if z41 = true then L - liq_net_at pool.ticks next_tick
                     else L + liq_net_at pool.ticks next_tick) ≤ 0
                · rw [if_pos hliq] at h
                  obtain ⟨hid, hleft, hout⟩ := sim_exit_ok (by omega) h
                  exact ⟨hid, hleft, by omega⟩
                · rw [if_neg hliq] at h
                  push_neg at hliq
                  obtain ⟨hid, hleft, hout⟩ := ih sn
                    (if z41 = true then next_tick - 1 else next_tick)
                    (if z41 = true then L - liq_net_at pool.ticks next_tick
                     else L + liq_net_at pool.ticks next_tick)
                    (rem - (ai2 + fa2)) (acc + ao2) (crossed + 1) out dbg
                    (hcross ▸ htgt_pos) hliq.le (by omega) h
                  exact ⟨hid, hleft, by omega⟩
              · rw [if_neg hcross] at h
                obtain ⟨hid, hleft, hout⟩ := sim_exit_ok (by omega) h
                exact ⟨hid, hleft, by omega⟩

/-- **C9.** For every successful simulation on a valid pool state
(positive sqrt price, unsigned liquidity, ppm fee) and nonnegative input,
the diagnostics satisfy `amount_in_consumed + amount_in_left = amount_in`,
`amount_in_left ≥ 0`, and the output is nonnegative. -/
theorem C9_simulation_conservation (pool : V3SimPool) (amount_in : Int)
    (zero_for_one : Bool) (max_cross : Int) (out : Int) (dbg : SwapDiag)
    (hsq : 0 < pool.sqrtP) (hL : 0 ≤ pool.liquidity)
    (hfee0 : 0 ≤ pool.fee) (hfeeF : pool.fee < FEE_DENOM)
    (hin : 0 ≤ amount_in)
    (h : simulate_swap_exact_in pool amount_in zero_for_one max_cross =
      some (out, dbg)) :
    dbg.amount_in_consumed + dbg.amount_in_left = amount_in ∧
    0 ≤ dbg.amount_in_left ∧ 0 ≤ out := by
  unfold simulate_swap_exact_in at h
  obtain ⟨hid, hleft, hout⟩ := simLoop_conserve pool amount_in zero_for_one
    max_cross hfee0 hfeeF (max_cross.toNat + 2) pool.sqrtP pool.tick
    pool.liquidity amount_in 0 0 out dbg hsq hL hin h
  exact ⟨hid, hleft, hout⟩

theorem C9_witness :
    simulate_swap_exact_in ⟨6, 18, 3000, 60, 2 * Q96, 13863, 2 ^ 96, [(0, 5)]⟩
        1000 true 80 =
      some (3987, ⟨158456325028528675187087896685, 13863, 0, false, 1000, 0⟩) ∧
    (1000 : Int) + 0 = 1000 ∧ (0 : Int) ≤ 0 ∧ (0 : Int) ≤ 3987 :=
  ⟨by decide,
   (C9_simulation_conservation
      ⟨6, 18, 3000, 60, 2 * Q96, 13863, 2 ^ 96, [(0, 5)]⟩ 1000 true 80 3987
      ⟨158456325028528675187087896685, 13863, 0, false, 1000, 0⟩
      (by decide) (by decide) (by decide) (by decide) (by decide)
      (by decide)).1,
   (C9_simulation_conservation
      ⟨6, 18, 3000, 60, 2 * Q96, 13863, 2 ^ 96, [(0, 5)]⟩ 1000 true 80 3987
      ⟨158456325028528675187087896685, 13863, 0, false, 1000, 0⟩
      (by decide) (by decide) (by decide) (by decide) (by decide)
      (by decide)).2⟩

/-! ## C3: output monotonicity of the simulator in the input amount -/

lemma out_of_exit {acc out : Int} {d dbg : SwapDiag}
    (h : (some (acc, d) : Option (Int × SwapDiag)) = some (out, dbg)) :
    out = acc := by
  have hc := Option.some.inj h
  simp only [Prod.mk.injEq] at hc
  exact hc.1.symm

/-- With no remaining input the loop returns its accumulator unchanged. -/
lemma simLoop_out_of_nonpos {pool : V3SimPool} {amt : Int} {z41 : Bool}
    {mc : Int} {fuel : Nat} {sqrtP tick L rem acc crossed out : Int}
    {dbg : SwapDiag} (hrem : rem ≤ 0)
    (h : simLoop pool amt z41 mc fuel sqrtP tick L rem acc crossed =
      some (out, dbg)) : out = acc := by
  cases fuel with
  | zero =>
    rw [simLoop] at h
    exact out_of_exit h
  | succ n =>
    rw [simLoop, if_pos hrem] at h
    exact out_of_exit h

/-- Monotonicity of the token0 output formula in the final sqrt price
(`one_for_zero` direction). -/
lemma o41_out_mono {L sqrtP s1 s2 : Int} (hL : 0 ≤ L) (hsq : 0 < sqrtP)
    (h1 : sqrtP ≤ s1) (h12 : s1 ≤ s2) :
    L * Q96 * (s1 - sqrtP) / (s1 * sqrtP) ≤
      L * Q96 * (s2 - sqrtP) / (s2 * sqrtP) := by
  have hQ := Q96_pos
  have hs1 : 0 < s1 := lt_of_lt_of_le hsq h1
  have hs2 : 0 < s2 := lt_of_lt_of_le hs1 h12
  apply ediv_le_ediv_cross (mul_pos hs1 hsq) (mul_pos hs2 hsq)
  nlinarith [mul_nonneg (mul_nonneg (mul_nonneg hL hQ.le) hsq.le)
    (mul_nonneg (sub_nonneg.2 h12) hsq.le)]

/-- The solved next sqrt price of a partial `zero_for_one` step is
antitone in the available input. -/
lemma z41_sn_antitone {L sqrtP lfA lfB : Int} (hL : 0 < L) (hsq : 0 < sqrtP)
    (hlfA : 0 ≤ lfA) (hlfB : 0 ≤ lfB) (hmono : lfA ≤ lfB) :
    cdiv (L * Q96 * sqrtP) (L * Q96 + lfB * sqrtP) ≤
      cdiv (L * Q96 * sqrtP) (L * Q96 + lfA * sqrtP) := by
  have hQ := Q96_pos
  have hLQ := mul_pos hL hQ
  have hdA : 0 < L * Q96 + lfA * sqrtP := by
    have := mul_nonneg hlfA hsq.le
    linarith
  have hdB : 0 < L * Q96 + lfB * sqrtP := by
    have := mul_nonneg hlfB hsq.le
    linarith
  apply cdiv_le_cdiv_cross hdB hdA
  have hnum : (0:Int) ≤ L * Q96 * sqrtP :=
    mul_nonneg (mul_nonneg hL.le hQ.le) hsq.le
  have hdle : L * Q96 + lfA * sqrtP ≤ L * Q96 + lfB * sqrtP := by
    have := mul_le_mul_of_nonneg_right hmono hsq.le
    linarith
  exact mul_le_mul_of_nonneg_left hdle hnum

set_option maxHeartbeats 1000000 in
/-- Core monotonicity of the simulation loop: from the same pool state,
more remaining input (and a larger accumulator) never produces less
output. -/
lemma simLoop_mono (pool : V3SimPool) (amtA amtB : Int) (z41 : Bool)
    (max_cross : Int) (hfee0 : 0 ≤ pool.fee) (hfeeF : pool.fee < FEE_DENOM) :
    ∀ (fuel : Nat) (sqrtP tick L remA remB accA accB crossed outA outB : Int)
      (dbgA dbgB : SwapDiag),
      0 < sqrtP → 0 ≤ L → 0 ≤ remA → remA ≤ remB → accA ≤ accB →
      simLoop pool amtA z41 max_cross fuel sqrtP tick L remA accA crossed =
        some (outA, dbgA) →
      simLoop pool amtB z41 max_cross fuel sqrtP tick L remB accB crossed =
        some (outB, dbgB) →
      outA ≤ outB := by
  intro fuel
  induction fuel with
  | zero =>
    intro sqrtP tick L remA remB accA accB crossed outA outB dbgA dbgB
      hsq hL hA0 hAB hacc hA hB
    rw [simLoop] at hA hB
    rw [out_of_exit hA, out_of_exit hB]
    exact hacc
  | succ fuel ih =>
    intro sqrtP tick L remA remB accA accB crossed outA outB dbgA dbgB
      hsq hL hA0 hAB hacc hA hB
    have hBorig := hB
    rw [simLoop] at hA hB
    by_cases hBnil : remB ≤ 0
    · have hAnil : remA ≤ 0 := le_trans hAB hBnil
      rw [if_pos hAnil] at hA
      rw [if_pos hBnil] at hB
      rw [out_of_exit hA, out_of_exit hB]
      exact hacc
    · rw [if_neg hBnil] at hB
      push_neg at hBnil
      by_cases hAnil : remA ≤ 0
      · rw [if_pos hAnil] at hA
        have houtA := out_of_exit hA
        have hcons := simLoop_conserve pool amtB z41 max_cross hfee0 hfeeF
          (fuel + 1) sqrtP tick L remB accB crossed outB dbgB hsq hL
          hBnil.le hBorig
        omega
      · rw [if_neg hAnil] at hA
        push_neg at hAnil
        by_cases hcx : crossed > max_cross
        · rw [if_pos hcx] at hA hB
          rw [out_of_exit hA, out_of_exit hB]
          exact hacc
        · rw [if_neg hcx] at hA hB
          cases hnt : next_initialized_tick pool tick z41 with
          | none =>
            rw [hnt] at hA hB
            rw [out_of_exit hA, out_of_exit hB]
            exact hacc
          | some next_tick =>
            rw [hnt] at hA hB
            obtain ⟨tgt, htgt_eq, hA⟩ := Option.bind_eq_some.1 hA
            obtain ⟨tgt', htgt', hB⟩ := Option.bind_eq_some.1 hB
            rw [htgt_eq] at htgt'
            obtain rfl : tgt = tgt' := Option.some.inj htgt'
            have htgt_pos := get_sqrt_ratio_at_tick_pos htgt_eq
            by_cases hd1 : z41 = true ∧ tgt ≥ sqrtP
            · rw [if_pos hd1] at hA hB
              rw [out_of_exit hA, out_of_exit hB]
              exact hacc
            · rw [if_neg hd1] at hA hB
              by_cases hd2 : ¬ z41 = true ∧ tgt ≤ sqrtP
              · rw [if_pos hd2] at hA hB
                rw [out_of_exit hA, out_of_exit hB]
                exact hacc
              · rw [if_neg hd2] at hA hB
                obtain ⟨stepA, hstepA, hA⟩ := Option.bind_eq_some.1 hA
                obtain ⟨stepB, hstepB, hB⟩ := Option.bind_eq_some.1 hB
                obtain ⟨snA, aiA, aoA, faA⟩ := stepA
                obtain ⟨snB, aiB, aoB, faB⟩ := stepB
                dsimp only at hA hB
                have hdir : if z41 then tgt < sqrtP else sqrtP < tgt := by
                  cases z41 <;> simp_all
                have hboundsA :=
                  step_bounds hsq htgt_pos hdir hL hAnil hfee0 hfeeF hstepA
                have hboundsB :=
                  step_bounds hsq htgt_pos hdir hL hBnil hfee0 hfeeF hstepB
                have hQ := Q96_pos
                have hlfmono :
                    remA * (FEE_DENOM - pool.fee) / FEE_DENOM ≤
                      remB * (FEE_DENOM - pool.fee) / FEE_DENOM :=
                  Int.ediv_le_ediv FEE_DENOM_pos
                    (mul_le_mul_of_nonneg_right hAB (by omega))
                cases z41 with
                | true =>
                  simp only [eq_self_iff_true, if_true] at hA hB
                  have hdirt : tgt < sqrtP := by simpa using hdir
                  obtain ⟨hlfA0, hmi0, hcaseA⟩ :=
                    step_char_z41 hsq htgt_pos hdirt hL hAnil hfee0 hfeeF hstepA
                  obtain ⟨hlfB0, _, hcaseB⟩ :=
                    step_char_z41 hsq htgt_pos hdirt hL hBnil hfee0 hfeeF hstepB
                  rcases hcaseA with ⟨hfullA, hsnA, haiA, haoA, hfaA⟩ |
                    ⟨hpartA, hLposA, haiA, hfaA, hsnAv, hsnAge, hsnAle, haoA⟩
                  · -- A reaches the target: B must too, steps are identical
                    rcases hcaseB with ⟨hfullB, hsnB, haiB, haoB, hfaB⟩ |
                      ⟨hpartB, _, _, _, _, _, _, _⟩
                    swap
                    · omega
                    subst hsnA
                    subst hsnB
                    subst haiA
                    subst haiB
                    subst hfaA
                    subst hfaB
                    subst haoA
                    subst haoB
                    rw [if_pos rfl] at hA hB
                    split at hA
                    · rename_i hliq
                      rw [if_pos hliq] at hB
                      have h1 := out_of_exit hA
                      have h2 := out_of_exit hB
                      omega
                    · rename_i hliq
                      rw [if_neg hliq] at hB
                      push_neg at hliq
                      exact ih _ _ _ _ _ _ _ _ outA outB dbgA dbgB htgt_pos
                        hliq.le (by omega) (by omega) (by omega) hA hB
                  · -- A is partial: it consumes everything and stops
                    subst haiA
                    subst hfaA
                    have houtA : outA = accA + aoA := by
                      by_cases hcA : snA = tgt
                      · rw [if_pos hcA] at hA
                        split at hA
                        · exact out_of_exit hA
                        · exact simLoop_out_of_nonpos (by omega) hA
                      · rw [if_neg hcA] at hA
                        exact out_of_exit hA
                    rcases hcaseB with ⟨hfullB, hsnB, haiB, haoB, hfaB⟩ |
                      ⟨hpartB, hLposB, haiB, hfaB, hsnBv, hsnBge, hsnBle, haoB⟩
                    · -- B reaches the target
                      subst hsnB
                      subst haiB
                      subst hfaB
                      have haole : aoA ≤ aoB := by
                        rw [haoA, haoB]
                        exact Int.ediv_le_ediv hQ
                          (mul_le_mul_of_nonneg_left (by omega) hL)
                      have houtB : accB + aoB ≤ outB := by
                        rw [if_pos rfl] at hB
                        split at hB
                        · rw [out_of_exit hB]
                        · rename_i hliq
                          push_neg at hliq
                          exact (simLoop_conserve pool amtB true max_cross
                            hfee0 hfeeF fuel _ _ _ _ _ _ outB dbgB htgt_pos
                            hliq.le (by omega) hB).2.2
                      omega
                    · -- B partial as well
                      subst haiB
                      subst hfaB
                      have hsnle2 : snB ≤ snA := by
                        rw [hsnAv, hsnBv]
                        exact z41_sn_antitone hLposA hsq hlfA0 hlfB0 hlfmono
                      have haole : aoA ≤ aoB := by
                        rw [haoA, haoB]
                        exact Int.ediv_le_ediv hQ
                          (mul_le_mul_of_nonneg_left (by omega) hL)
                      have houtB : outB = accB + aoB := by
                        by_cases hcB : snB = tgt
                        · rw [if_pos hcB] at hB
                          split at hB
                          · exact out_of_exit hB
                          · exact simLoop_out_of_nonpos (by omega) hB
                        · rw [if_neg hcB] at hB
                          exact out_of_exit hB
                      omega
                | false =>
                  simp only [Bool.false_eq_true, if_false] at hA hB
                  have hdirf : sqrtP < tgt := by simpa using hdir
                  obtain ⟨hlfA0, hmi0, hcaseA⟩ :=
                    step_char_o41 hsq htgt_pos hdirf hL hAnil hfee0 hfeeF hstepA
                  obtain ⟨hlfB0, _, hcaseB⟩ :=
                    step_char_o41 hsq htgt_pos hdirf hL hBnil hfee0 hfeeF hstepB
                  rcases hcaseA with ⟨hfullA, hsnA, haiA, haoA, hfaA⟩ |
                    ⟨hpartA, hLposA, haiA, hfaA, hsnAv, hsnAge, hsnAlt, haoA⟩
                  · rcases hcaseB with ⟨hfullB, hsnB, haiB, haoB, hfaB⟩ |
                      ⟨hpartB, _, _, _, _, _, _, _⟩
                    swap
                    · omega
                    subst hsnA
                    subst hsnB
                    subst haiA
                    subst haiB
                    subst hfaA
                    subst hfaB
                    subst haoA
                    subst haoB
                    rw [if_pos rfl] at hA hB
                    split at hA
                    · rename_i hliq
                      rw [if_pos hliq] at hB
                      have h1 := out_of_exit hA
                      have h2 := out_of_exit hB
                      omega
                    · rename_i hliq
                      rw [if_neg hliq] at hB
                      push_neg at hliq
                      exact ih _ _ _ _ _ _ _ _ outA outB dbgA dbgB htgt_pos
                        hliq.le (by omega) (by omega) (by omega) hA hB
                  · subst haiA
                    subst hfaA
                    have houtA : outA = accA + aoA := by
                      by_cases hcA : snA = tgt
                      · rw [if_pos hcA] at hA
                        split at hA
                        · exact out_of_exit hA
                        · exact simLoop_out_of_nonpos (by omega) hA
                      · rw [if_neg hcA] at hA
                        exact out_of_exit hA
                    rcases hcaseB with ⟨hfullB, hsnB, haiB, haoB, hfaB⟩ |
                      ⟨hpartB, hLposB, haiB, hfaB, hsnBv, hsnBge, hsnBlt, haoB⟩
                    · subst hsnB
                      subst haiB
                      subst hfaB
                      have haole : aoA ≤ aoB := by
                        rw [haoA, haoB]
                        exact o41_out_mono hL hsq hsnAge (by omega)
                      have houtB : accB + aoB ≤ outB := by
                        rw [if_pos rfl] at hB
                        split at hB
                        · rw [out_of_exit hB]
                        · rename_i hliq
                          push_neg at hliq
                          exact (simLoop_conserve pool amtB false max_cross
                            hfee0 hfeeF fuel _ _ _ _ _ _ outB dbgB htgt_pos
                            hliq.le (by omega) hB).2.2
                      omega
                    · subst haiB
                      subst hfaB
                      have hsnle2 : snA ≤ snB := by
                        rw [hsnAv, hsnBv]
                        have hmul : remA * (FEE_DENOM - pool.fee) / FEE_DENOM *
                            Q96 ≤ remB * (FEE_DENOM - pool.fee) / FEE_DENOM *
                            Q96 := mul_le_mul_of_nonneg_right hlfmono hQ.le
                        have := Int.ediv_le_ediv hLposA hmul
                        omega
                      have haole : aoA ≤ aoB := by
                        rw [haoA, haoB]
                        exact o41_out_mono hL hsq hsnAge hsnle2
                      have houtB : outB = accB + aoB := by
                        by_cases hcB : snB = tgt
                        · rw [if_pos hcB] at hB
                          split at hB
                          · exact out_of_exit hB
                          · exact simLoop_out_of_nonpos (by omega) hB
                        · rw [if_neg hcB] at hB
                          exact out_of_exit hB
                      omega

/-- **C3.** For a fixed pool state (valid per the data model: positive sqrt
price, unsigned liquidity, ppm fee), direction, and crossing bound, the
output of `simulate_swap_exact_in` is monotonically non-decreasing in the
input amount. -/
theorem C3_output_monotone (pool : V3SimPool) (zero_for_one : Bool)
    (max_cross : Int) (a b outA outB : Int) (dbgA dbgB : SwapDiag)
    (hsq : 0 < pool.sqrtP) (hL : 0 ≤ pool.liquidity)
    (hfee0 : 0 ≤ pool.fee) (hfeeF : pool.fee < FEE_DENOM)
    (ha : 0 ≤ a) (hab : a ≤ b)
    (hA : simulate_swap_exact_in pool a zero_for_one max_cross =
      some (outA, dbgA))
    (hB : simulate_swap_exact_in pool b zero_for_one max_cross =
      some (outB, dbgB)) :
    outA ≤ outB :=
  simLoop_mono pool a b zero_for_one max_cross hfee0 hfeeF
    (max_cross.toNat + 2) pool.sqrtP pool.tick pool.liquidity a b 0 0 0
    outA outB dbgA dbgB hsq hL ha hab le_rfl hA hB

theorem C3_witness :
    simulate_swap_exact_in ⟨6, 18, 3000, 60, 2 * Q96, 13863, 2 ^ 96, [(0, 5)]⟩
        400 true 80 =
      some (1591, ⟨158456325028528675187087899081, 13863, 0, false, 400, 0⟩) ∧
    simulate_swap_exact_in ⟨6, 18, 3000, 60, 2 * Q96, 13863, 2 ^ 96, [(0, 5)]⟩
        1000 true 80 =
      some (3987, ⟨158456325028528675187087896685, 13863, 0, false, 1000, 0⟩) ∧
    (1591 : Int) ≤ 3987 :=
  ⟨by decide, by decide,
   C3_output_monotone ⟨6, 18, 3000, 60, 2 * Q96, 13863, 2 ^ 96, [(0, 5)]⟩
     true 80 400 1000 1591 3987
     ⟨158456325028528675187087899081, 13863, 0, false, 400, 0⟩
     ⟨158456325028528675187087896685, 13863, 0, false, 1000, 0⟩
     (by decide) (by decide) (by decide) (by decide) (by decide) (by decide)
     (by decide) (by decide)⟩

/-! ## LiquidityProfiler (`v3_analysis.py`) -/

/-- One liquidity segment of `build_liquidity_profile_from_ticks`.  The
source also decorates each segment with `price_lower`/`price_upper`
display strings (Decimal renderings of the tick prices); those are
presentation-only and are omitted. -/
structure LiqSeg where
  tick_lower : Int
  tick_upper : Int
  liquidity : Int
deriving DecidableEq

/-- The upward walk of `build_liquidity_profile_from_ticks`: skip ticks
`≤ last_tick`, emit `[last_tick, t)` with the running liquidity, then add
the crossed tick's `liquidityNet`.  `cap` is `max_segments - len(segs)`,
checked before each append exactly like the Python `len` guard. -/
def buildUp : List (Int × Int) → Int → Int → Nat → List LiqSeg
  | _, _, _, 0 => []
  | [], _, _, _ + 1 => []
  | (t, ln) :: rest, last_tick, upL, cap + 1 =>
    if t ≤ last_tick then buildUp rest last_tick upL (cap + 1)
    else ⟨last_tick, t, upL⟩ :: buildUp rest t (upL + ln) cap

/-- The downward walk: over the reversed lower ticks, skip ticks
`≥ last_tick`, emit `[t, last_tick)`, then subtract the crossed tick's
`liquidityNet`. -/
def buildDown : List (Int × Int) → Int → Int → Nat → List LiqSeg
  | _, _, _, 0 => []
  | [], _, _, _ + 1 => []
  | (t, ln) :: rest, last_tick, dnL, cap + 1 =>
    if t ≥ last_tick then buildDown rest last_tick dnL (cap + 1)
    else ⟨t, last_tick, dnL⟩ :: buildDown rest t (dnL - ln) cap

/-- `build_liquidity_profile_from_ticks` from `v3_analysis.py` (the
`token0_decimals`/`token1_decimals` arguments only feed the omitted price
strings).  Returns the up-walk and down-walk segments, sorted by
`tick_lower`. -/
def build_liquidity_profile_from_ticks (current_tick tick_spacing
    current_liquidity : Int) (ticks : List (Int × Int))
    (max_segments : Nat) : List LiqSeg :=
  if tick_spacing ≤ 0 then []
  else
    let sorted_ticks := List.insertionSort (fun a b => a.1 ≤ b.1) ticks
    if sorted_ticks = [] then []
    else
      let down_ticks := sorted_ticks.takeWhile
        (fun tl => decide (tl.1 ≤ current_tick))
      let up_ticks := sorted_ticks.dropWhile
        (fun tl => decide (tl.1 ≤ current_tick))
      let up := buildUp up_ticks current_tick current_liquidity max_segments
      let down := buildDown down_ticks.reverse current_tick current_liquidity
        (max_segments - up.length)
      List.insertionSort (fun s s' => s.tick_lower ≤ s'.tick_lower)
        (up ++ down)

lemma buildUp_length : ∀ (l : List (Int × Int)) (last L : Int) (cap : Nat),
    (buildUp l last L cap).length ≤ cap := by
  intro l
  induction l with
  | nil =>
    intro last L cap
    cases cap <;> simp [buildUp]
  | cons p rest ih =>
    intro last L cap
    obtain ⟨t, ln⟩ := p
    cases cap with
    | zero => simp [buildUp]
    | succ cap =>
      rw [buildUp]
      split
      · exact ih last L (cap + 1)
      · simpa using Nat.succ_le_succ (ih t (L + ln) cap)

lemma buildDown_length : ∀ (l : List (Int × Int)) (last L : Int) (cap : Nat),
    (buildDown l last L cap).length ≤ cap := by
  intro l
  induction l with
  | nil =>
    intro last L cap
    cases cap <;> simp [buildDown]
  | cons p rest ih =>
    intro last L cap
    obtain ⟨t, ln⟩ := p
    cases cap with
    | zero => simp [buildDown]
    | succ cap =>
      rw [buildDown]
      split
      · exact ih last L (cap + 1)
      · simpa using Nat.succ_le_succ (ih t (L - ln) cap)

lemma buildUp_mem : ∀ (l : List (Int × Int)) (last L : Int) (cap : Nat)
    (s : LiqSeg), s ∈ buildUp l last L cap →
    last ≤ s.tick_lower ∧ s.tick_lower < s.tick_upper ∧
      (s.tick_lower = last → s.liquidity = L) := by
  intro l
  induction l with
  | nil =>
    intro last L cap s hs
    cases cap <;> simp [buildUp] at hs
  | cons p rest ih =>
    intro last L cap s hs
    obtain ⟨t, ln⟩ := p
    cases cap with
    | zero => simp [buildUp] at hs
    | succ cap =>
      rw [buildUp] at hs
      split at hs
      · exact ih last L (cap + 1) s hs
      · rename_i hgt
        push_neg at hgt
        rcases List.mem_cons.1 hs with rfl | hs'
        · exact ⟨le_refl _, hgt, fun _ => rfl⟩
        · obtain ⟨h1, h2, _⟩ := ih t (L + ln) cap s hs'
          exact ⟨by omega, h2, fun hlow => by omega⟩

lemma buildDown_mem : ∀ (l : List (Int × Int)) (last L : Int) (cap : Nat)
    (s : LiqSeg), s ∈ buildDown l last L cap →
    s.tick_upper ≤ last ∧ s.tick_lower < s.tick_upper ∧
      (s.tick_upper = last → s.liquidity = L) := by
  intro l
  induction l with
  | nil =>
    intro last L cap s hs
    cases cap <;> simp [buildDown] at hs
  | cons p rest ih =>
    intro last L cap s hs
    obtain ⟨t, ln⟩ := p
    cases cap with
    | zero => simp [buildDown] at hs
    | succ cap =>
      rw [buildDown] at hs
      split at hs
      · exact ih last L (cap + 1) s hs
      · rename_i hge
        push_neg at hge
        rcases List.mem_cons.1 hs with rfl | hs'
        · exact ⟨le_refl _, hge, fun _ => rfl⟩
        · obtain ⟨h1, h2, _⟩ := ih t (L - ln) cap s hs'
          exact ⟨by omega, h2, fun hup => by omega⟩

lemma buildUp_head : ∀ (l : List (Int × Int)) (last L : Int) (cap : Nat)
    (s : LiqSeg), (buildUp l last L cap).head? = some s →
    s.tick_lower = last ∧ s.liquidity = L := by
  intro l
  induction l with
  | nil =>
    intro last L cap s hs
    cases cap <;> simp [buildUp] at hs
  | cons p rest ih =>
    intro last L cap s hs
    obtain ⟨t, ln⟩ := p
    cases cap with
    | zero => simp [buildUp] at hs
    | succ cap =>
      rw [buildUp] at hs
      split at hs
      · exact ih last L (cap + 1) s hs
      · simp only [List.head?_cons, Option.some.injEq] at hs
        subst hs
        exact ⟨rfl, rfl⟩

lemma buildDown_head : ∀ (l : List (Int × Int)) (last L : Int) (cap : Nat)
    (s : LiqSeg), (buildDown l last L cap).head? = some s →
    s.tick_upper = last ∧ s.liquidity = L := by
  intro l
  induction l with
  | nil =>
    intro last L cap s hs
    cases cap <;> simp [buildDown] at hs
  | cons p rest ih =>
    intro last L cap s hs
    obtain ⟨t, ln⟩ := p
    cases cap with
    | zero => simp [buildDown] at hs
    | succ cap =>
      rw [buildDown] at hs
      split at hs
      · exact ih last L (cap + 1) s hs
      · simp only [List.head?_cons, Option.some.injEq] at hs
        subst hs
        exact ⟨rfl, rfl⟩

/-- First-match lookup agrees with membership on duplicate-free lists. -/
lemma liq_net_at_of_mem : ∀ (T : List (Int × Int)) (t ln : Int),
    List.Pairwise (fun a b : Int × Int => a.1 ≠ b.1) T →
    (t, ln) ∈ T → liq_net_at T t = ln := by
  intro T
  induction T with
  | nil => intro t ln _ h; simp at h
  | cons p rest ih =>
    intro t ln hdist hmem
    obtain ⟨t', ln'⟩ := p
    obtain ⟨hhead, htail⟩ := List.pairwise_cons.1 hdist
    rcases List.mem_cons.1 hmem with heq | hmem'
    · obtain ⟨rfl, rfl⟩ := Prod.mk.injEq .. ▸ heq
      simp [liq_net_at]
    · have hne : t' ≠ t := by
        have := hhead (t, ln) hmem'
        simpa using this
      rw [liq_net_at]
      rw [if_neg hne]
      exact ih t ln htail hmem'

/-- The upward walk is a contiguous chain: each segment's upper boundary is
the next segment's lower boundary, boundaries strictly increase, and
crossing a boundary adds that tick's `liquidityNet`. -/
lemma buildUp_chain (T : List (Int × Int)) :
    ∀ (l : List (Int × Int)) (last L : Int) (cap : Nat),
      (∀ p ∈ l, liq_net_at T p.1 = p.2) →
      List.Chain' (fun s s' : LiqSeg => s.tick_upper = s'.tick_lower ∧
        s.tick_lower < s'.tick_lower ∧
        s'.liquidity = s.liquidity + liq_net_at T s'.tick_lower)
        (buildUp l last L cap) := by
  intro l
  induction l with
  | nil =>
    intro last L cap _
    cases cap <;> simp [buildUp]
  | cons p rest ih =>
    intro last L cap hT
    obtain ⟨t, ln⟩ := p
    cases cap with
    | zero => simp [buildUp]
    | succ cap =>
      rw [buildUp]
      split
      · exact ih last L (cap + 1) (fun q hq => hT q (List.mem_cons_of_mem _ hq))
      · rename_i hgt
        push_neg at hgt
        rw [List.chain'_cons']
        refine ⟨?_, ih t (L + ln) cap
          (fun q hq => hT q (List.mem_cons_of_mem _ hq))⟩
        intro y hy
        obtain ⟨hylow, hyliq⟩ := buildUp_head rest t (L + ln) cap y hy
        refine ⟨hylow.symm, ?_, ?_⟩
        · show last < y.tick_lower
          omega
        · rw [hyliq, hylow, hT (t, ln) (List.mem_cons_self _ _)]

/-- The downward walk, in generated (descending) order: each new segment's
upper boundary is the previous segment's lower boundary, and moving back up
across a boundary adds that tick's `liquidityNet` (i.e. the downward walk
subtracted it). -/
lemma buildDown_chain (T : List (Int × Int)) :
    ∀ (l : List (Int × Int)) (last L : Int) (cap : Nat),
      (∀ p ∈ l, liq_net_at T p.1 = p.2) →
      List.Chain' (fun s s' : LiqSeg => s'.tick_upper = s.tick_lower ∧
        s'.tick_lower < s.tick_lower ∧
        s.liquidity = s'.liquidity + liq_net_at T s.tick_lower)
        (buildDown l last L cap) := by
  intro l
  induction l with
  | nil =>
    intro last L cap _
    cases cap <;> simp [buildDown]
  | cons p rest ih =>
    intro last L cap hT
    obtain ⟨t, ln⟩ := p
    cases cap with
    | zero => simp [buildDown]
    | succ cap =>
      rw [buildDown]
      split
      · exact ih last L (cap + 1) (fun q hq => hT q (List.mem_cons_of_mem _ hq))
      · rename_i hge
        push_neg at hge
        rw [List.chain'_cons']
        refine ⟨?_, ih t (L - ln) cap
          (fun q hq => hT q (List.mem_cons_of_mem _ hq))⟩
        intro y hy
        obtain ⟨hyup, hyliq⟩ := buildDown_head rest t (L - ln) cap y hy
        have hymem : y ∈ buildDown rest t (L - ln) cap :=
          List.mem_of_mem_head? hy
        obtain ⟨hyle, hylt, _⟩ := buildDown_mem rest t (L - ln) cap y hymem
        refine ⟨hyup, ?_, ?_⟩
        · show y.tick_lower < t
          omega
        · show (L : Int) = y.liquidity + liq_net_at T t
          rw [hyliq, hT (t, ln) (List.mem_cons_self _ _)]
          ring

set_option maxHeartbeats 1000000 in
/-- **C6.** Every profile returned by `build_liquidity_profile_from_ticks`
(on a duplicate-free tick list) is a list of at most `max_segments`
segments, sorted by `tick_lower`, contiguous and non-overlapping
(each segment's upper bound is the next one's lower bound), lying entirely
on one side of the current tick; across every boundary other than the
current tick itself, the liquidity changes by exactly that boundary tick's
`liquidityNet` (the upward walk adds it, the downward walk subtracts it),
and the segments touching the current tick carry `current_liquidity`. -/
theorem C6_profile_invariants (current_tick tick_spacing
    current_liquidity : Int) (ticks : List (Int × Int)) (max_segments : Nat)
    (hdist : List.Pairwise (fun a b : Int × Int => a.1 ≠ b.1) ticks) :
    (build_liquidity_profile_from_ticks current_tick tick_spacing
        current_liquidity ticks max_segments).length ≤ max_segments ∧
    List.Sorted (fun s s' : LiqSeg => s.tick_lower ≤ s'.tick_lower)
      (build_liquidity_profile_from_ticks current_tick tick_spacing
        current_liquidity ticks max_segments) ∧
    List.Chain' (fun s s' : LiqSeg => s.tick_upper = s'.tick_lower)
      (build_liquidity_profile_from_ticks current_tick tick_spacing
        current_liquidity ticks max_segments) ∧
    (∀ s ∈ build_liquidity_profile_from_ticks current_tick tick_spacing
        current_liquidity ticks max_segments,
      s.tick_lower < s.tick_upper ∧
      (current_tick ≤ s.tick_lower ∨ s.tick_upper ≤ current_tick)) ∧
    List.Chain' (fun s s' : LiqSeg => s'.tick_lower = current_tick ∨
      s'.liquidity = s.liquidity + liq_net_at ticks s'.tick_lower)
      (build_liquidity_profile_from_ticks current_tick tick_spacing
        current_liquidity ticks max_segments) ∧
    (∀ s ∈ build_liquidity_profile_from_ticks current_tick tick_spacing
        current_liquidity ticks max_segments,
      s.tick_lower = current_tick ∨ s.tick_upper = current_tick →
      s.liquidity = current_liquidity) := by
  haveI hTransLt : IsTrans LiqSeg
      (fun s s' => s.tick_lower < s'.tick_lower) :=
    ⟨fun a b c h1 h2 => lt_trans h1 h2⟩
  haveI hAntiLt : IsAntisymm LiqSeg
      (fun s s' => s.tick_lower < s'.tick_lower) :=
    ⟨fun a b h1 h2 => absurd (lt_trans h1 h2) (lt_irrefl _)⟩
  haveI hTransLe : IsTrans LiqSeg
      (fun s s' => s.tick_lower ≤ s'.tick_lower) :=
    ⟨fun a b c h1 h2 => le_trans h1 h2⟩
  haveI hTotalLe : IsTotal LiqSeg
      (fun s s' => s.tick_lower ≤ s'.tick_lower) :=
    ⟨fun a b => le_total _ _⟩
  by_cases hts : tick_spacing ≤ 0
  · have hnil : build_liquidity_profile_from_ticks current_tick tick_spacing
        current_liquidity ticks max_segments = [] := by
      unfold build_liquidity_profile_from_ticks
      rw [if_pos hts]
    rw [hnil]
    simp
  · by_cases hsort : List.insertionSort
        (fun a b : Int × Int => a.1 ≤ b.1) ticks = []
    · have hnil : build_liquidity_profile_from_ticks current_tick tick_spacing
          current_liquidity ticks max_segments = [] := by
        unfold build_liquidity_profile_from_ticks
        rw [if_neg hts]
        dsimp only
        rw [if_pos hsort]
      rw [hnil]
      simp
    · set sL := List.insertionSort (fun a b : Int × Int => a.1 ≤ b.1) ticks
        with hsL
      set upT := sL.dropWhile (fun tl => decide (tl.1 ≤ current_tick))
        with hupT
      set downT := sL.takeWhile (fun tl => decide (tl.1 ≤ current_tick))
        with hdownT
      set up := buildUp upT current_tick current_liquidity max_segments
        with hup
      set down := buildDown downT.reverse current_tick current_liquidity
        (max_segments - up.length) with hdown
      have hmain : build_liquidity_profile_from_ticks current_tick
          tick_spacing current_liquidity ticks max_segments =
          List.insertionSort
            (fun s s' : LiqSeg => s.tick_lower ≤ s'.tick_lower)
            (up ++ down) := by
        rw [hup, hdown, hupT, hdownT, hsL]
        unfold build_liquidity_profile_from_ticks
        rw [if_neg hts]
        dsimp only
        rw [if_neg hsort]
      have hmem_sL : ∀ p : Int × Int, p ∈ sL → p ∈ ticks := by
        intro p hp
        exact (List.perm_insertionSort _ ticks).subset hp
      have hTup : ∀ p ∈ upT, liq_net_at ticks p.1 = p.2 := by
        intro p hp
        have h1 : p ∈ sL := (List.dropWhile_sublist _).subset hp
        exact liq_net_at_of_mem ticks p.1 p.2 hdist (hmem_sL p h1)
      have hTdown : ∀ p ∈ downT.reverse, liq_net_at ticks p.1 = p.2 := by
        intro p hp
        have h0 : p ∈ downT := List.mem_reverse.1 hp
        have h1 : p ∈ sL := (List.takeWhile_sublist _).subset h0
        exact liq_net_at_of_mem ticks p.1 p.2 hdist (hmem_sL p h1)
      have hchainU := buildUp_chain ticks upT current_tick current_liquidity
        max_segments hTup
      have hchainD := buildDown_chain ticks downT.reverse current_tick
        current_liquidity (max_segments - up.length) hTdown
      rw [← hup] at hchainU
      rw [← hdown] at hchainD
      have hchainDrev : List.Chain' (fun s s' : LiqSeg =>
          s.tick_upper = s'.tick_lower ∧ s.tick_lower < s'.tick_lower ∧
          s'.liquidity = s.liquidity + liq_net_at ticks s'.tick_lower)
          down.reverse := by
        rw [List.chain'_reverse]
        exact hchainD.imp (fun a b hab => hab)
      have hup_mem : ∀ s ∈ up, current_tick ≤ s.tick_lower ∧
          s.tick_lower < s.tick_upper ∧
          (s.tick_lower = current_tick → s.liquidity = current_liquidity) := by
        intro s hs
        exact buildUp_mem upT current_tick current_liquidity max_segments s
          (hup ▸ hs)
      have hdown_mem : ∀ s ∈ down, s.tick_upper ≤ current_tick ∧
          s.tick_lower < s.tick_upper ∧
          (s.tick_upper = current_tick → s.liquidity = current_liquidity) := by
        intro s hs
        exact buildDown_mem downT.reverse current_tick current_liquidity
          (max_segments - up.length) s (hdown ▸ hs)
      have hjun : ∀ x ∈ down.reverse.getLast?, ∀ y ∈ up.head?,
          (x.tick_upper = y.tick_lower ∧ x.tick_lower < y.tick_lower) ∧
          y.tick_lower = current_tick := by
        intro x hx y hy
        rw [List.getLast?_reverse] at hx
        have hxh := buildDown_head downT.reverse current_tick
          current_liquidity (max_segments - up.length) x
          (by rw [hdown] at hx; exact Option.mem_def.1 hx)
        have hxmem : x ∈ down := List.mem_of_mem_head? hx
        obtain ⟨hxle, hxlt, _⟩ := hdown_mem x hxmem
        have hyh := buildUp_head upT current_tick current_liquidity
          max_segments y (by rw [hup] at hy; exact Option.mem_def.1 hy)
        refine ⟨⟨?_, ?_⟩, hyh.1⟩
        · omega
        · omega
      set m := down.reverse ++ up with hm
      have hchainM0 : List.Chain' (fun s s' : LiqSeg =>
          s.tick_upper = s'.tick_lower ∧ s.tick_lower < s'.tick_lower) m := by
        rw [hm]
        refine List.Chain'.append
          (hchainDrev.imp fun a b hab => ⟨hab.1, hab.2.1⟩)
          (hchainU.imp fun a b hab => ⟨hab.1, hab.2.1⟩) ?_
        intro x hx y hy
        exact (hjun x hx y hy).1
      have hchainM1 : List.Chain' (fun s s' : LiqSeg =>
          s'.tick_lower = current_tick ∨
          s'.liquidity = s.liquidity + liq_net_at ticks s'.tick_lower) m := by
        rw [hm]
        refine List.Chain'.append
          (hchainDrev.imp fun a b hab => Or.inr hab.2.2)
          (hchainU.imp fun a b hab => Or.inr hab.2.2) ?_
        intro x hx y hy
        exact Or.inl (hjun x hx y hy).2
      have hpairD : List.Pairwise
          (fun s s' : LiqSeg => s.tick_lower < s'.tick_lower) down.reverse :=
        List.chain'_iff_pairwise.1 (hchainDrev.imp fun a b hab => hab.2.1)
      have hpairU : List.Pairwise
          (fun s s' : LiqSeg => s.tick_lower < s'.tick_lower) up :=
        List.chain'_iff_pairwise.1 (hchainU.imp fun a b hab => hab.2.1)
      have hpairM : List.Pairwise
          (fun s s' : LiqSeg => s.tick_lower < s'.tick_lower) m := by
        rw [hm, List.pairwise_append]
        refine ⟨hpairD, hpairU, ?_⟩
        intro x hx y hy
        obtain ⟨hxle, hxlt, _⟩ := hdown_mem x (List.mem_reverse.1 hx)
        obtain ⟨hyge, hylt, _⟩ := hup_mem y hy
        omega
      have hperm : List.Perm (build_liquidity_profile_from_ticks current_tick
          tick_spacing current_liquidity ticks max_segments) m := by
        rw [hmain, hm]
        refine (List.perm_insertionSort _ _).trans ?_
        refine List.Perm.trans List.perm_append_comm ?_
        exact (List.reverse_perm down).symm.append_right up
      have hsort_fin : List.Sorted
          (fun s s' : LiqSeg => s.tick_lower ≤ s'.tick_lower)
          (build_liquidity_profile_from_ticks current_tick tick_spacing
            current_liquidity ticks max_segments) := by
        rw [hmain]
        exact List.sorted_insertionSort _ _
      have hne_fin : List.Pairwise
          (fun s s' : LiqSeg => s.tick_lower ≠ s'.tick_lower)
          (build_liquidity_profile_from_ticks current_tick tick_spacing
            current_liquidity ticks max_segments) := by
        refine (hperm.pairwise_iff (fun h => Ne.symm h)).2
          (hpairM.imp fun h => ne_of_lt h)
      have hstrict_fin : List.Pairwise
          (fun s s' : LiqSeg => s.tick_lower < s'.tick_lower)
          (build_liquidity_profile_from_ticks current_tick tick_spacing
            current_liquidity ticks max_segments) :=
        List.Pairwise.imp₂ (fun _ _ h1 h2 => lt_of_le_of_ne h1 h2)
          hsort_fin hne_fin
      have heq : build_liquidity_profile_from_ticks current_tick tick_spacing
          current_liquidity ticks max_segments = m :=
        List.eq_of_perm_of_sorted hperm hstrict_fin hpairM
      rw [heq]
      refine ⟨?_, ?_, ?_, ?_, hchainM1, ?_⟩
      · rw [hm]
        have h1 : up.length ≤ max_segments := by
          rw [hup]
          exact buildUp_length _ _ _ _
        have h2 : down.length ≤ max_segments - up.length := by
          rw [hdown]
          exact buildDown_length _ _ _ _
        rw [List.length_append, List.length_reverse]
        omega
      · exact hpairM.imp fun h => le_of_lt h
      · exact hchainM0.imp fun a b hab => hab.1
      · intro s hs
        rw [hm] at hs
        rcases List.mem_append.1 hs with hs' | hs'
        · obtain ⟨h1, h2, _⟩ := hdown_mem s (List.mem_reverse.1 hs')
          exact ⟨h2, Or.inr h1⟩
        · obtain ⟨h1, h2, _⟩ := hup_mem s hs'
          exact ⟨h2, Or.inl h1⟩
      · intro s hs hor
        rw [hm] at hs
        rcases List.mem_append.1 hs with hs' | hs'
        · obtain ⟨h1, h2, h3⟩ := hdown_mem s (List.mem_reverse.1 hs')
          rcases hor with h4 | h4
          · omega
          · exact h3 h4
        · obtain ⟨h1, h2, h3⟩ := hup_mem s hs'
          rcases hor with h4 | h4
          · exact h3 h4
          · omega

theorem C6_witness :
    build_liquidity_profile_from_ticks 10 60 1000
        [(-60, 7), (0, 3), (120, -5), (240, 4)] 10 =
      [⟨-60, 0, 997⟩, ⟨0, 10, 1000⟩, ⟨10, 120, 1000⟩, ⟨120, 240, 995⟩] ∧
    (build_liquidity_profile_from_ticks 10 60 1000
        [(-60, 7), (0, 3), (120, -5), (240, 4)] 10).length ≤ 10 :=
  ⟨by decide,
   (C6_profile_invariants 10 60 1000 [(-60, 7), (0, 3), (120, -5), (240, 4)]
      10 (by decide)).1⟩

end ChainMonitorV2
